import Mathlib

/-!
TritonTube: consistent-hash content router (internal/web/nw.go)

A shallow embedding of `NetworkVideoContentService` and of the storage nodes it talks to
(internal/storage/storage.go), followed by theorems about ring lookup, node join and leave,
and data placement.

Conventions of the embedding
* `hash : String → Nat` stands for `hashStringToUint64` (first 8 bytes of SHA-256, big endian);
  only comparisons are made on hash values, so they are kept as natural numbers.
* `dial : String → Bool` says whether `grpc.Dial` returns without error for an address.
* A Go map read of a missing key yields the zero value: `hashToAddr` is a total function with
  default `""`, the client registry is the predicate "has a non-nil client".
* A run-time panic (index out of range, method call on a nil client) is the result `none`.
* A storage node is identified with its address and has its own base directory and files; a
  file is named by the path `filepath.Join(BaseDir, VideoId, Filename)`, cleaned as
  `filepath.Clean` does on a slash-separated path.
-/

namespace TritonTube

/-- Payload bytes of a content chunk. -/
abbrev Bytes := List Nat

/-- Contents of all storage nodes: address, then path of the file. -/
abbrev Disk := String → String → Option Bytes

/-- One RPC issued by the router to a storage node (address, videoId, filename). -/
inductive Rpc where
  | writeFile (addr videoId filename : String) (data : Bytes)
  | readFile (addr videoId filename : String)
  | deleteFile (addr videoId filename : String)
deriving DecidableEq, Repr

/-- The storage cluster as seen from the router: the base directory each node was started
with, node contents by cleaned path, and the RPCs sent so far. -/
structure World where
  disk : Disk
  sent : List Rpc
  baseDir : String → String

/-- The struct `NetworkVideoContentService` of nw.go. -/
structure NetworkVideoContentService where
  nodes : List String
  hashRing : List Nat
  hashToAddr : Nat → String
  clients : String → Bool
  files : List (String × Bytes)

/-- First ring point, in slice order, with `h <= ringHash` (the loop of `findNode`). -/
def scanRing (h : Nat) : List Nat → Option Nat
  | [] => none
  | r :: rs => if h ≤ r then some r else scanRing h rs

/-- The function `findNodeInStaticRing`; `none` is the index-out-of-range panic of `ring[0]`. -/
def findNodeInStaticRing (hash : String → Nat) (key : String) (ring : List Nat)
    (hashToAddr : Nat → String) : Option String :=
  match scanRing (hash key) ring with
  | some r => some (hashToAddr r)
  | none =>
    match ring with
    | [] => none
    | r0 :: _ => some (hashToAddr r0)

/-- The method `findNode`, the same scan over the live ring. -/
def findNode (hash : String → Nat) (s : NetworkVideoContentService) (key : String) :
    Option String :=
  match scanRing (hash key) s.hashRing with
  | some r => some (s.hashToAddr r)
  | none =>
    match s.hashRing with
    | [] => none
    | r0 :: _ => some (s.hashToAddr r0)

/-- Result of `sort.Slice` with the strict order on `uint64`: the ascending arrangement. -/
def sortSlice (ring : List Nat) : List Nat :=
  ring.insertionSort (fun a b => a ≤ b)

/-- The method `sortRing`. -/
def sortRing (s : NetworkVideoContentService) : NetworkVideoContentService :=
  { s with hashRing := sortSlice s.hashRing }

/-- Go map assignment `m[k] = v` on a total-function view of the map. -/
def mapSet {α β : Type} [DecidableEq α] (m : α → β) (k : α) (v : β) : α → β :=
  fun x => if x = k then v else m x

/-- Assignment `files[key] = data`: replace the entry of an existing key, else add one. -/
def filesSet : List (String × Bytes) → String → Bytes → List (String × Bytes)
  | [], key, data => [(key, data)]
  | (k, d) :: rest, key, data =>
    if k = key then (k, data) :: rest else (k, d) :: filesSet rest key data

/-- Read `files[key]` as an option. -/
def filesGet : List (String × Bytes) → String → Option Bytes
  | [], _ => none
  | (k, d) :: rest, key => if k = key then some d else filesGet rest key

/-- Split a character list at its first slash, as `strings.SplitN(key, "/", 2)` does;
`none` when there is no slash (the result then has length 1). -/
def splitFirstSlash : List Char → Option (List Char × List Char)
  | [] => none
  | c :: cs =>
    if c = '/' then some ([], cs)
    else
      match splitFirstSlash cs with
      | some (a, b) => some (c :: a, b)
      | none => none

/-- The call `strings.SplitN(key, "/", 2)` with the test `len(parts) == 2`. -/
def splitKey (key : String) : Option (String × String) :=
  match splitFirstSlash key.data with
  | some (a, b) => some (String.mk a, String.mk b)
  | none => none

/-- The name `videoId/filename` under which a request addresses a chunk. -/
def relPath (videoId filename : String) : String :=
  videoId ++ "/" ++ filename

/-- The call `strings.Split(path, "/")` on characters: the elements of a path. -/
def splitSlash : List Char → List (List Char)
  | [] => [[]]
  | c :: cs =>
    if c = '/' then [] :: splitSlash cs
    else
      match splitSlash cs with
      | [] => [[c]]
      | p :: ps => (c :: p) :: ps

/-- Path elements joined by slashes. -/
def joinSlash : List (List Char) → List Char
  | [] => []
  | [a] => a
  | a :: b :: rest => a ++ '/' :: joinSlash (b :: rest)

/-- One element in the loop of `filepath.Clean`, on the stack of elements kept so far (top
first): empty elements and `.` are dropped; `..` removes the last kept element, or is kept
when the path is not rooted and nothing can be removed; every other element is kept. -/
def cleanStep (rooted : Bool) (kept : List (List Char)) (elem : List Char) :
    List (List Char) :=
  if elem = [] ∨ elem = ['.'] then kept
  else if elem = ['.', '.'] then
    match kept with
    | [] => if rooted then [] else [elem]
    | top :: below => if top = ['.', '.'] then elem :: kept else below
  else elem :: kept

/-- The function `filepath.Clean` on the characters of a slash-separated path. -/
def cleanChars (path : List Char) : List Char :=
  if path = [] then ['.']
  else
    let rooted := decide (path.head? = some '/')
    let kept := (splitSlash path).foldl (cleanStep rooted) []
    if rooted then '/' :: joinSlash kept.reverse
    else if kept = [] then ['.']
    else joinSlash kept.reverse

/-- The function `filepath.Clean`. -/
def cleanPath (path : String) : String :=
  String.mk (cleanChars path.data)

/-- Elements joined by slashes, as `strings.Join(elem, "/")`. -/
def joinElems : List String → String
  | [] => ""
  | [a] => a
  | a :: b :: rest => a ++ "/" ++ joinElems (b :: rest)

/-- The function `filepath.Join`: leading empty elements are skipped, the rest is joined by
slashes and cleaned; the result is empty when every element is. -/
def filepathJoin (elems : List String) : String :=
  match elems.dropWhile (fun e => decide (e = "")) with
  | [] => ""
  | e :: rest => cleanPath (joinElems (e :: rest))

/-- The path `filepath.Join(s.BaseDir, req.VideoId, req.Filename)` of the storage handlers. -/
def storagePath (baseDir videoId filename : String) : String :=
  filepathJoin [baseDir, videoId, filename]

/-- The cleaned path of a key `videoId/filename` below a non-empty base directory. -/
def keyPath (baseDir key : String) : String :=
  cleanPath (baseDir ++ "/" ++ key)

/-- The call `strings.Split(option, ",")` on characters: never the empty list. -/
def splitComma : List Char → List (List Char)
  | [] => [[]]
  | c :: cs =>
    if c = ',' then [] :: splitComma cs
    else
      match splitComma cs with
      | [] => [[c]]
      | p :: ps => (c :: p) :: ps

/-- The node list `strings.Split(option, ",")`. -/
def splitNodes (option : String) : List String :=
  (splitComma option.data).map String.mk

/-- Conversion `int32(migrated)` of a non-negative count. -/
def toInt32 (n : Nat) : Int :=
  ((n + 2147483648) % 4294967296 : Nat) - 2147483648

/-- Outcome of the RPCs of one call: whether the transport and the file operation of
`WriteFile`, `DeleteFile`, `ReadFile` on (address, `videoId/filename`) go through. -/
structure Net where
  writeOk : String → String → Bool
  deleteOk : String → String → Bool
  readOk : String → String → Bool

/-- A network on which every RPC succeeds. -/
def Net.allOk : Net :=
  { writeOk := fun _ _ => true, deleteOk := fun _ _ => true, readOk := fun _ _ => true }

/-- Overwrite one file of one node. -/
def diskSet (d : Disk) (addr path : String) (v : Option Bytes) : Disk :=
  fun a p => if a = addr ∧ p = path then v else d a p

/-- The handler `VideoStorageService.WriteFile` reached through the client of `addr`:
the request is recorded; on success the file at the joined path holds `data`. Returns
`err == nil`. -/
def rpcWriteFile (net : Net) (w : World) (addr videoId filename : String) (data : Bytes) :
    World × Bool :=
  let w1 : World := { w with sent := w.sent ++ [Rpc.writeFile addr videoId filename data] }
  if net.writeOk addr (relPath videoId filename) then
    let path := storagePath (w.baseDir addr) videoId filename
    ({ w1 with disk := diskSet w1.disk addr path (some data) }, true)
  else (w1, false)

/-- The handler `VideoStorageService.DeleteFile`: `os.Remove` fails on a missing path. -/
def rpcDeleteFile (net : Net) (w : World) (addr videoId filename : String) : World × Bool :=
  let w1 : World := { w with sent := w.sent ++ [Rpc.deleteFile addr videoId filename] }
  if net.deleteOk addr (relPath videoId filename) then
    let path := storagePath (w.baseDir addr) videoId filename
    match w1.disk addr path with
    | some _ => ({ w1 with disk := diskSet w1.disk addr path none }, true)
    | none => (w1, false)
  else (w1, false)

/-- The handler `VideoStorageService.ReadFile`: the stored bytes, or an error. -/
def rpcReadFile (net : Net) (w : World) (addr videoId filename : String) :
    World × Option Bytes :=
  let w1 : World := { w with sent := w.sent ++ [Rpc.readFile addr videoId filename] }
  if net.readOk addr (relPath videoId filename) then
    (w1, w1.disk addr (storagePath (w.baseDir addr) videoId filename))
  else (w1, none)

/-- The registration loop of `NewNetworkVideoContentService`: ring point, map entry, dial,
client, for each address in turn; a dial error aborts construction. -/
def registerAll (hash : String → Nat) (dial : String → Bool) :
    List String → NetworkVideoContentService → Except String NetworkVideoContentService
  | [], s => Except.ok s
  | addr :: rest, s =>
    let s1 : NetworkVideoContentService :=
      { s with hashRing := s.hashRing ++ [hash addr],
               hashToAddr := mapSet s.hashToAddr (hash addr) addr }
    if dial addr then
      registerAll hash dial rest { s1 with clients := mapSet s1.clients addr true }
    else Except.error ("failed to dial " ++ addr)

/-- The constructor `NewNetworkVideoContentService`. -/
def NewNetworkVideoContentService (hash : String → Nat) (dial : String → Bool)
    (option : String) : Except String NetworkVideoContentService :=
  let nodes := splitNodes option
  if nodes.length = 0 then Except.error "must provide at least one storage node"
  else
    match registerAll hash dial nodes
        { nodes := nodes, hashRing := [], hashToAddr := fun _ => "",
          clients := fun _ => false, files := [] } with
    | Except.ok s => Except.ok (sortRing s)
    | Except.error e => Except.error e

/-- The method `Read`: the world after the call and the bytes, or an error (`none`);
the outer `none` is a panic. -/
def Read (hash : String → Nat) (net : Net) (s : NetworkVideoContentService) (w : World)
    (videoId filename : String) : Option (World × Option Bytes) :=
  match findNode hash s (videoId ++ "/" ++ filename) with
  | none => none
  | some addr =>
    if s.clients addr then some (rpcReadFile net w addr videoId filename) else none

/-- The method `Write`: the state and world after the call and `err == nil`;
`none` is a panic. -/
def Write (hash : String → Nat) (net : Net) (s : NetworkVideoContentService) (w : World)
    (videoId filename : String) (data : Bytes) :
    Option (NetworkVideoContentService × World × Bool) :=
  match findNode hash s (videoId ++ "/" ++ filename) with
  | none => none
  | some addr =>
    if s.clients addr then
      match rpcWriteFile net w addr videoId filename data with
      | (w1, true) =>
        some ({ s with files := filesSet s.files (videoId ++ "/" ++ filename) data }, w1, true)
      | (w1, false) => some (s, w1, false)
    else none

/-- The method `ListNodes`. -/
def ListNodes (s : NetworkVideoContentService) : List String :=
  s.nodes

/-- State, world and response after an admin call. -/
structure AdminResult where
  svc : NetworkVideoContentService
  world : World
  resp : Except String Int

/-- The snapshot `oldHashToAddr` built by `AddNode` and `RemoveNode`: the entries of the
ring points only. -/
def snapshotMap (s : NetworkVideoContentService) : Nat → String :=
  fun h => if h ∈ s.hashRing then s.hashToAddr h else ""

/-- The migration loop of `AddNode` over the entries of `files`; `s` is the state after
registration. Returns the world and the counter `migrated`; `none` is a panic. -/
def addNodeLoop (hash : String → Nat) (net : Net) (s : NetworkVideoContentService)
    (addr : String) (oldRing : List Nat) (oldHashToAddr : Nat → String) :
    List (String × Bytes) → World → Nat → Option (World × Nat)
  | [], w, migrated => some (w, migrated)
  | (key, data) :: rest, w, migrated =>
    match findNodeInStaticRing hash key oldRing oldHashToAddr with
    | none => none
    | some oldNode =>
      match findNode hash s key with
      | none => none
      | some newNode =>
        if newNode = addr ∧ oldNode ≠ newNode then
          match splitKey key with
          | none => addNodeLoop hash net s addr oldRing oldHashToAddr rest w migrated
          | some (videoId, filename) =>
            if s.clients newNode then
              match rpcWriteFile net w newNode videoId filename data with
              | (w1, true) =>
                if s.clients oldNode then
                  addNodeLoop hash net s addr oldRing oldHashToAddr rest
                    (rpcDeleteFile net w1 oldNode videoId filename).1 (migrated + 1)
                else none
              | (w1, false) =>
                addNodeLoop hash net s addr oldRing oldHashToAddr rest w1 migrated
            else none
        else addNodeLoop hash net s addr oldRing oldHashToAddr rest w migrated

/-- The state of `AddNode` after the lines that append the node, its ring point and its map
entry (before the dial). -/
def appendNode (hash : String → Nat) (s : NetworkVideoContentService) (addr : String) :
    NetworkVideoContentService :=
  { s with nodes := s.nodes ++ [addr],
           hashRing := s.hashRing ++ [hash addr],
           hashToAddr := mapSet s.hashToAddr (hash addr) addr }

/-- The state of `AddNode` after a successful dial: client stored, ring sorted. -/
def registerNode (hash : String → Nat) (s : NetworkVideoContentService) (addr : String) :
    NetworkVideoContentService :=
  sortRing { appendNode hash s addr with clients := mapSet s.clients addr true }

/-- The method `AddNode`; `none` is a panic. -/
def AddNode (hash : String → Nat) (dial : String → Bool) (net : Net)
    (s : NetworkVideoContentService) (w : World) (addr : String) : Option AdminResult :=
  if addr ∈ s.nodes then
    some { svc := s, world := w, resp := Except.error "node already exists" }
  else if dial addr then
    match addNodeLoop hash net (registerNode hash s addr) addr (sortSlice s.hashRing)
        (snapshotMap s) s.files w 0 with
    | none => none
    | some (w1, migrated) =>
      some { svc := registerNode hash s addr, world := w1,
             resp := Except.ok (toInt32 migrated) }
  else
    some { svc := appendNode hash s addr, world := w,
           resp := Except.error "failed to connect to new node" }

/-- The state of `RemoveNode` after the node, its ring points and its client are removed and
the ring is sorted. -/
def unregisterNode (s : NetworkVideoContentService) (addr : String) :
    NetworkVideoContentService :=
  sortRing
    { s with nodes := s.nodes.filter (fun n => n ≠ addr),
             hashRing := s.hashRing.filter (fun h => s.hashToAddr h ≠ addr),
             clients := mapSet s.clients addr false }

/-- The migration loop of `RemoveNode`; `s` is the state after removal, `oldClient` says
whether the removed node had a client. `none` is a panic. -/
def removeNodeLoop (hash : String → Nat) (net : Net) (s : NetworkVideoContentService)
    (addr : String) (oldClient : Bool) (oldRing : List Nat) (oldHashToAddr : Nat → String) :
    List (String × Bytes) → World → Nat → Option (World × Nat)
  | [], w, migrated => some (w, migrated)
  | (key, data) :: rest, w, migrated =>
    match findNodeInStaticRing hash key oldRing oldHashToAddr with
    | none => none
    | some oldNode =>
      if oldNode ≠ addr then
        removeNodeLoop hash net s addr oldClient oldRing oldHashToAddr rest w migrated
      else
        match findNode hash s key with
        | none => none
        | some newNode =>
          if newNode = addr then
            removeNodeLoop hash net s addr oldClient oldRing oldHashToAddr rest w migrated
          else
            match splitKey key with
            | none =>
              removeNodeLoop hash net s addr oldClient oldRing oldHashToAddr rest w migrated
            | some (videoId, filename) =>
              if s.clients newNode then
                match rpcWriteFile net w newNode videoId filename data with
                | (w1, true) =>
                  if oldClient then
                    removeNodeLoop hash net s addr oldClient oldRing oldHashToAddr rest
                      (rpcDeleteFile net w1 addr videoId filename).1 (migrated + 1)
                  else none
                | (w1, false) =>
                  removeNodeLoop hash net s addr oldClient oldRing oldHashToAddr rest w1
                    migrated
              else none

/-- The method `RemoveNode`; `none` is a panic. -/
def RemoveNode (hash : String → Nat) (net : Net) (s : NetworkVideoContentService)
    (w : World) (addr : String) : Option AdminResult :=
  match removeNodeLoop hash net (unregisterNode s addr) addr (s.clients addr)
      (sortSlice s.hashRing) (snapshotMap s) s.files w 0 with
  | none => none
  | some (w1, migrated) =>
    some { svc := unregisterNode s addr, world := w1, resp := Except.ok (toInt32 migrated) }

/-- Values of `hashStringToUint64` on the strings used in the examples below: the first eight
bytes of the SHA-256 digest read as a big-endian integer. Strings outside the table are not
used. -/
def exampleHash (s : String) : Nat :=
  if s = "n1:9001" then 6456183560182455725
  else if s = "n2:9002" then 5943539540917154178
  else if s = "n3:9003" then 11269482500948478728
  else if s = "n4:9004" then 18426529495389765948
  else if s = "%zz" then 8055422091515383941
  else if s = "n1:9001,n2:9002" then 8247762656751351943
  else if s = "v1/seg-001.m4s" then 4957342536004404208
  else if s = "v1/seg-002.m4s" then 14462292629489293763
  else if s = "v1/init.mp4" then 10106364173108216206
  else if s = "v2/seg-001.m4s" then 8210874348530654621
  else if s = "a/b" then 13928751565125340061
  else if s = "a//b" then 8834601437433283040
  else if s = "/a/b" then 7362113679516023597
  else 0

/-- Storage nodes started with base directory `/data`, with no file, and no RPC sent yet. -/
def emptyWorld : World :=
  { disk := fun _ _ => none, sent := [], baseDir := fun _ => "/data" }

/-- Storage nodes started with an empty base directory, with no file. -/
def bareWorld : World :=
  { disk := fun _ _ => none, sent := [], baseDir := fun _ => "" }

/-- The router built from `n2:9002,n1:9001,n3:9003` with every address reachable. -/
def exampleRouter : NetworkVideoContentService :=
  { nodes := ["n2:9002", "n1:9001", "n3:9003"],
    hashRing := [5943539540917154178, 6456183560182455725, 11269482500948478728],
    hashToAddr := fun h =>
      if h = 5943539540917154178 then "n2:9002"
      else if h = 6456183560182455725 then "n1:9001"
      else if h = 11269482500948478728 then "n3:9003"
      else "",
    clients := fun a => a = "n1:9001" ∨ a = "n2:9002" ∨ a = "n3:9003",
    files := [] }

/-- The ring point chosen by the lookup loop: the scan result, else the first element. -/
def ownerPoint (h : Nat) (ring : List Nat) : Option Nat :=
  match scanRing h ring with
  | some r => some r
  | none => ring.head?

/-- The example router after the `Write` of three chunks, all RPCs having succeeded. -/
def exampleRouterWithFiles : NetworkVideoContentService :=
  { exampleRouter with
    files := [("v1/seg-001.m4s", [1, 2]), ("v1/seg-002.m4s", [3]), ("v1/init.mp4", [4])] }

/-- The storage nodes holding the three chunks of `exampleRouterWithFiles` at their owners. -/
def exampleWorld : World :=
  { disk := fun a p =>
      if a = "n2:9002" ∧ p = "/data/v1/seg-001.m4s" then some [1, 2]
      else if a = "n2:9002" ∧ p = "/data/v1/seg-002.m4s" then some [3]
      else if a = "n3:9003" ∧ p = "/data/v1/init.mp4" then some [4]
      else none,
    sent := [],
    baseDir := fun _ => "/data" }

/-- Dial outcome used in the examples: every address can be dialled except `%zz`, which is
not a valid gRPC target. -/
def exampleDial (a : String) : Bool :=
  decide (a ≠ "%zz")

/-- The router built from the option string, when construction succeeds. -/
def newRouter (hash : String → Nat) (dial : String → Bool) (option : String) :
    Option NetworkVideoContentService :=
  match NewNetworkVideoContentService hash dial option with
  | Except.ok s => some s
  | Except.error _ => none

/-- The field `MigratedFileCount` of a response, `none` for an error return. -/
def respCount (r : AdminResult) : Option Int :=
  match r.resp with
  | Except.ok n => some n
  | Except.error _ => none

/-- Representation invariant of a router whose registrations all completed: the ring is
sorted; every ring point maps to a listed node that has a client; every indexed key has the
form `videoId/filename`; and the ring is non-empty as soon as a key is indexed. -/
structure Consistent (s : NetworkVideoContentService) : Prop where
  sorted : s.hashRing.Sorted (fun a b => a ≤ b)
  ring_nodes : ∀ h ∈ s.hashRing, s.hashToAddr h ∈ s.nodes
  ring_clients : ∀ h ∈ s.hashRing, s.clients (s.hashToAddr h) = true
  keys_split : ∀ kd ∈ s.files, splitKey kd.1 ≠ none
  ring_of_files : s.files ≠ [] → s.hashRing ≠ []

/-- The invariant of a router whose nodes have pairwise distinct hash points: in addition to
`Consistent`, the ring is the list of hash points of the listed nodes, each mapped back to its
node, and every listed node has a client; the key index has one entry per key. -/
structure WellFormed (hash : String → Nat) (s : NetworkVideoContentService) : Prop where
  sorted : s.hashRing.Sorted (fun a b => a ≤ b)
  ring_perm : s.hashRing.Perm (s.nodes.map hash)
  hash_nodup : (s.nodes.map hash).Nodup
  map_ok : ∀ n ∈ s.nodes, s.hashToAddr (hash n) = n
  clients_ok : ∀ n ∈ s.nodes, s.clients n = true
  keys_split : ∀ kd ∈ s.files, splitKey kd.1 ≠ none
  keys_nodup : (s.files.map Prod.fst).Nodup
  nodes_of_files : s.files ≠ [] → s.nodes ≠ []

/-- The keys `AddNode` relocates to `addr` and counts: the new owner is `addr`, the old owner
is another node, and the `WriteFile` to `addr` succeeds. -/
def addNodeMoved (hash : String → Nat) (net : Net) (s : NetworkVideoContentService)
    (addr : String) (key : String) : Bool :=
  decide (findNode hash (registerNode hash s addr) key = some addr) &&
    decide (findNode hash s key ≠ some addr) && net.writeOk addr key

/-- The keys `RemoveNode` relocates and counts: the old owner is `addr` and the `WriteFile`
to the new owner succeeds. -/
def removeNodeMoved (hash : String → Nat) (net : Net) (s : NetworkVideoContentService)
    (addr : String) (key : String) : Bool :=
  decide (findNode hash s key = some addr) &&
    match findNode hash (unregisterNode s addr) key with
    | some newNode => net.writeOk newNode key
    | none => false

/-- Stored-data placement: every indexed key is held, with the indexed bytes, by the node it
resolves to under the live ring. -/
def Placed (hash : String → Nat) (s : NetworkVideoContentService) (w : World) : Prop :=
  ∀ kd ∈ s.files, ∃ a, findNode hash s kd.1 = some a ∧
    w.disk a (keyPath (w.baseDir a) kd.1) = some kd.2

/-- Every base directory is non-empty, and on no node do two distinct keys of the list name
the same file once `filepath.Join` has cleaned the path. -/
def NoAlias (baseDir : String → String) (keys : List String) : Prop :=
  (∀ a, baseDir a ≠ "") ∧
  ∀ a, ∀ k1 ∈ keys, ∀ k2 ∈ keys, keyPath (baseDir a) k1 = keyPath (baseDir a) k2 → k1 = k2

/-- The invariant of the call sequences, for a list of keys without aliases: a well-formed
router with at least one node whose indexed keys are in the list and are all held by their
owners. -/
def Inv (hash : String → Nat) (keys : List String)
    (sw : NetworkVideoContentService × World) : Prop :=
  WellFormed hash sw.1 ∧ Placed hash sw.1 sw.2 ∧ sw.1.nodes ≠ [] ∧
    (∀ kd ∈ sw.1.files, kd.1 ∈ keys) ∧ NoAlias sw.2.baseDir keys

/-- A call made on the router. -/
inductive Op where
  | write (videoId filename : String) (data : Bytes)
  | addNode (addr : String)
  | removeNode (addr : String)

/-- One call: the state and world after it; `none` is a panic. -/
def step (hash : String → Nat) (dial : String → Bool) (net : Net)
    (sw : NetworkVideoContentService × World) : Op → Option (NetworkVideoContentService × World)
  | Op.write videoId filename data =>
    match Write hash net sw.1 sw.2 videoId filename data with
    | some r => some (r.1, r.2.1)
    | none => none
  | Op.addNode addr =>
    match AddNode hash dial net sw.1 sw.2 addr with
    | some r => some (r.svc, r.world)
    | none => none
  | Op.removeNode addr =>
    match RemoveNode hash net sw.1 sw.2 addr with
    | some r => some (r.svc, r.world)
    | none => none

/-- A sequence of calls, in order. -/
def runOps (hash : String → Nat) (dial : String → Bool) (net : Net) :
    NetworkVideoContentService × World → List Op → Option (NetworkVideoContentService × World)
  | sw, [] => some sw
  | sw, op :: rest =>
    match step hash dial net sw op with
    | some sw1 => runOps hash dial net sw1 rest
    | none => none

/-- Side conditions on one call: an added address can be dialled and, when new, has a hash
point no listed node has; a removal leaves at least one listed node. -/
def opOk (hash : String → Nat) (dial : String → Bool) (s : NetworkVideoContentService) :
    Op → Bool
  | Op.write _ _ _ => true
  | Op.addNode addr =>
    dial addr && (decide (addr ∈ s.nodes) || decide (hash addr ∉ s.nodes.map hash))
  | Op.removeNode addr => s.nodes.any (fun n => decide (n ≠ addr))

/-- The side conditions hold at every call of the sequence. -/
def admissible (hash : String → Nat) (dial : String → Bool) (net : Net) :
    NetworkVideoContentService × World → List Op → Bool
  | _, [] => true
  | sw, op :: rest =>
    opOk hash dial sw.1 op &&
      match step hash dial net sw op with
      | some sw1 => admissible hash dial net sw1 rest
      | none => true

/-- The bytes a call writes under a key, if it is a `Write` of that key. -/
def writeOf (op : Op) (key : String) : Option Bytes :=
  match op with
  | Op.write videoId filename data =>
    if key = videoId ++ "/" ++ filename then some data else none
  | _ => none

/-- The keys written by a sequence of calls. -/
def writtenKeys : List Op → List String
  | [] => []
  | Op.write videoId filename _ :: rest => (videoId ++ "/" ++ filename) :: writtenKeys rest
  | _ :: rest => writtenKeys rest

/-- The bytes of the most recent `Write` of a key in a sequence of calls. -/
def lastWrite : List Op → String → Option Bytes
  | [], _ => none
  | op :: rest, key =>
    match lastWrite rest key with
    | some d => some d
    | none => writeOf op key

/-- The router the constructor returns for `n2:9002,n1:9001,n3:9003`. -/
def exampleStart : NetworkVideoContentService :=
  match NewNetworkVideoContentService exampleHash exampleDial "n2:9002,n1:9001,n3:9003" with
  | Except.ok s => s
  | Except.error _ =>
    { nodes := [], hashRing := [], hashToAddr := fun _ => "", clients := fun _ => false,
      files := [] }

/-- A sequence of calls with two writes, a join and a leave. -/
def exampleOps : List Op :=
  [Op.write "v1" "seg-002.m4s" [3], Op.addNode "n4:9004", Op.write "v1" "seg-001.m4s" [1, 2],
   Op.removeNode "n2:9002", Op.write "v1" "seg-002.m4s" [5]]

/-- The option string that lists the given addresses, separated by commas. -/
def joinComma : List String → String
  | [] => ""
  | [a] => a
  | a :: b :: rest => a ++ "," ++ joinComma (b :: rest)

/-- The router built from the first address and then grown by one `AddNode` per further
address; `none` when construction fails or a call panics. -/
def buildIncremental (hash : String → Nat) (dial : String → Bool) (net : Net) (w : World)
    (first : String) (others : List String) : Option NetworkVideoContentService :=
  match NewNetworkVideoContentService hash dial first with
  | Except.ok s =>
    match runOps hash dial net (s, w) (others.map Op.addNode) with
    | some sw => some sw.1
    | none => none
  | Except.error _ => none

/-- The router built directly from the whole list of addresses. -/
def buildFresh (hash : String → Nat) (dial : String → Bool) (addrs : List String) :
    Option NetworkVideoContentService :=
  newRouter hash dial (joinComma addrs)

/-- The outcome of `AddNode("%zz")`, an address that cannot be dialled, on the router built
from `n3:9003`. -/
def afterFailedDial : Option AdminResult :=
  (newRouter exampleHash exampleDial "n3:9003").bind
    (fun s0 => AddNode exampleHash exampleDial Net.allOk s0 emptyWorld "%zz")

/-- The outcome of `RemoveNode("n1:9001")`, an address never added, after `afterFailedDial`. -/
def afterUnknownRemove : Option AdminResult :=
  afterFailedDial.bind (fun r => RemoveNode exampleHash Net.allOk r.svc r.world "n1:9001")

/-- The outcome of `RemoveNode("n1:9001")` on the router built from `n1:9001` alone. -/
def afterLastRemove : Option AdminResult :=
  (newRouter exampleHash exampleDial "n1:9001").bind
    (fun s0 => RemoveNode exampleHash Net.allOk s0 emptyWorld "n1:9001")

/-- The router built from `n1:9001` alone after one successful `Write`. -/
def afterOneWrite : Option (NetworkVideoContentService × World × Bool) :=
  (newRouter exampleHash exampleDial "n1:9001").bind
    (fun s0 => Write exampleHash Net.allOk s0 emptyWorld "v1" "seg-001.m4s" [1, 2])

/-- Two writes whose keys `a/b` and `a//b` differ while `filepath.Join` gives both the path
`BaseDir/a/b`. -/
def aliasOps : List Op :=
  [Op.write "a" "b" [1], Op.write "a/" "b" [2]]

/-- The router built from `n1:9001` alone, over nodes with base directory `/data`, after
`aliasOps`. -/
def aliasRun : Option (NetworkVideoContentService × World) :=
  (newRouter exampleHash exampleDial "n1:9001").bind
    (fun s0 => runOps exampleHash exampleDial Net.allOk (s0, emptyWorld) aliasOps)

/-- A write with a video id that starts with a slash, followed by a join that takes the key
over. -/
def bareOps : List Op :=
  [Op.write "/a" "b" [1], Op.addNode "n3:9003"]

/-- The router built from `n4:9004` alone, over nodes with an empty base directory, after
`bareOps`. -/
def bareRun : Option (NetworkVideoContentService × World) :=
  (newRouter exampleHash exampleDial "n4:9004").bind
    (fun s0 => runOps exampleHash exampleDial Net.allOk (s0, bareWorld) bareOps)

/-- The router built from `n3:9003` after the failed `AddNode("%zz")` and a successful
`Write("v1", "seg-002.m4s", [3])`. -/
def afterFailedDialWrite : Option (NetworkVideoContentService × World × Bool) :=
  afterFailedDial.bind
    (fun r => Write exampleHash Net.allOk r.svc r.world "v1" "seg-002.m4s" [3])

/-- The router built from `n3:9003,n4:9004` after the failed `AddNode("%zz")` and a successful
`Write("v1", "seg-002.m4s", [3])`. -/
def twoNodesFailedDialWrite : Option (NetworkVideoContentService × World × Bool) :=
  ((newRouter exampleHash exampleDial "n3:9003,n4:9004").bind
    (fun s0 => AddNode exampleHash exampleDial Net.allOk s0 emptyWorld "%zz")).bind
    (fun r => Write exampleHash Net.allOk r.svc r.world "v1" "seg-002.m4s" [3])

/-- The test and the write outcome that make the loop of `AddNode` count an entry. -/
def addLoopCounts (hash : String → Nat) (net : Net) (s : NetworkVideoContentService)
    (addr : String) (oldRing : List Nat) (oldMap : Nat → String) (kd : String × Bytes) : Bool :=
  decide (findNode hash s kd.1 = some addr) &&
    decide (findNodeInStaticRing hash kd.1 oldRing oldMap ≠ some addr) &&
    net.writeOk addr kd.1

/-- The test and the write outcome that make the loop of `RemoveNode` count an entry. -/
def removeLoopCounts (hash : String → Nat) (net : Net) (s : NetworkVideoContentService)
    (addr : String) (oldRing : List Nat) (oldMap : Nat → String) (kd : String × Bytes) : Bool :=
  decide (findNodeInStaticRing hash kd.1 oldRing oldMap = some addr) &&
    match findNode hash s kd.1 with
    | some newNode => decide (newNode ≠ addr) && net.writeOk newNode kd.1
    | none => false

/-! ## Ring lookup -/

theorem scanRing_eq_none {h : Nat} {ring : List Nat} :
    scanRing h ring = none ↔ ∀ q ∈ ring, q < h := by
  induction ring with
  | nil => simp [scanRing]
  | cons r rs ih =>
    by_cases hr : h ≤ r
    · simp only [scanRing, hr, if_true, List.mem_cons, forall_eq_or_imp]
      constructor
      · intro hc; cases hc
      · intro hc; omega
    · simp only [scanRing, hr, if_false, List.mem_cons, forall_eq_or_imp, ih]
      constructor
      · intro hc; exact ⟨by omega, hc⟩
      · intro hc; exact hc.2

theorem scanRing_mem {h r : Nat} {ring : List Nat} (hscan : scanRing h ring = some r) :
    r ∈ ring ∧ h ≤ r := by
  induction ring with
  | nil => simp [scanRing] at hscan
  | cons a rs ih =>
    by_cases ha : h ≤ a
    · simp only [scanRing, ha, if_true, Option.some.injEq] at hscan
      subst hscan
      exact ⟨List.mem_cons_self _ _, ha⟩
    · simp only [scanRing, ha, if_false] at hscan
      exact ⟨List.mem_cons_of_mem _ (ih hscan).1, (ih hscan).2⟩

theorem scanRing_least {h r : Nat} {ring : List Nat} (hsorted : ring.Sorted (fun a b => a ≤ b))
    (hscan : scanRing h ring = some r) : ∀ q ∈ ring, h ≤ q → r ≤ q := by
  induction ring with
  | nil => simp [scanRing] at hscan
  | cons a rs ih =>
    rw [List.sorted_cons] at hsorted
    by_cases ha : h ≤ a
    · simp only [scanRing, ha, if_true, Option.some.injEq] at hscan
      subst hscan
      intro q hq _
      rcases List.mem_cons.1 hq with rfl | hq
      · exact le_refl _
      · exact hsorted.1 q hq
    · simp only [scanRing, ha, if_false] at hscan
      intro q hq hle
      rcases List.mem_cons.1 hq with rfl | hq
      · exact absurd hle ha
      · exact ih hsorted.2 hscan q hq hle

/-- In a sorted list the scan finds a given point `p` when `p` is at or above the target and
nothing below `p` is. -/
theorem scanRing_eq_of_least {h p : Nat} {ring : List Nat} (hp : p ∈ ring) (hle : h ≤ p)
    (hleast : ∀ q ∈ ring, h ≤ q → p ≤ q) (hsorted : ring.Sorted (fun a b => a ≤ b)) :
    scanRing h ring = some p := by
  cases hscan : scanRing h ring with
  | none => exact absurd hle (by have := scanRing_eq_none.1 hscan p hp; omega)
  | some r =>
    have h1 := scanRing_mem hscan
    have h2 := scanRing_least hsorted hscan p hp hle
    have h3 := hleast r h1.1 h1.2
    have : r = p := by omega
    rw [this]

theorem findNode_eq_static (hash : String → Nat) (s : NetworkVideoContentService)
    (key : String) :
    findNode hash s key = findNodeInStaticRing hash key s.hashRing s.hashToAddr := rfl

theorem sorted_sortSlice (ring : List Nat) : (sortSlice ring).Sorted (fun a b => a ≤ b) :=
  List.sorted_insertionSort _ ring

theorem perm_sortSlice (ring : List Nat) : (sortSlice ring).Perm ring :=
  List.perm_insertionSort _ ring

theorem mem_sortSlice {ring : List Nat} {x : Nat} : x ∈ sortSlice ring ↔ x ∈ ring :=
  (perm_sortSlice ring).mem_iff

theorem sortSlice_eq_self {ring : List Nat} (hsorted : ring.Sorted (fun a b => a ≤ b)) :
    sortSlice ring = ring :=
  List.Sorted.insertionSort_eq hsorted

/-- C1. On a non-empty ring sorted ascending, `findNode` (live ring) and
`findNodeInStaticRing` (snapshot) agree and return the address mapped to the smallest ring
point at or above the hash of the key; when the hash of the key is above every ring point they
return the address mapped to the minimum ring point. -/
theorem findNode_smallest_point_or_wrap (hash : String → Nat)
    (s : NetworkVideoContentService) (key : String) (hne : s.hashRing ≠ [])
    (hsorted : s.hashRing.Sorted (fun a b => a ≤ b)) :
    findNode hash s key = findNodeInStaticRing hash key s.hashRing s.hashToAddr ∧
    ((∃ q ∈ s.hashRing, hash key ≤ q) →
      ∃ p ∈ s.hashRing, hash key ≤ p ∧ (∀ q ∈ s.hashRing, hash key ≤ q → p ≤ q) ∧
        findNode hash s key = some (s.hashToAddr p)) ∧
    ((∀ q ∈ s.hashRing, q < hash key) →
      ∃ p ∈ s.hashRing, (∀ q ∈ s.hashRing, p ≤ q) ∧
        findNode hash s key = some (s.hashToAddr p)) := by
  refine ⟨rfl, ?_, ?_⟩
  · rintro ⟨q, hq, hle⟩
    cases hscan : scanRing (hash key) s.hashRing with
    | none => exact absurd hle (by have := scanRing_eq_none.1 hscan q hq; omega)
    | some r =>
      refine ⟨r, (scanRing_mem hscan).1, (scanRing_mem hscan).2,
        scanRing_least hsorted hscan, ?_⟩
      simp [findNode, hscan]
  · intro hall
    have hscan := scanRing_eq_none.2 hall
    cases hring : s.hashRing with
    | nil => exact absurd hring hne
    | cons r0 rs =>
      rw [hring] at hsorted hscan
      refine ⟨r0, List.mem_cons_self _ _, ?_, ?_⟩
      · intro q hq
        rcases List.mem_cons.1 hq with rfl | hq
        · exact le_refl _
        · exact (List.sorted_cons.1 hsorted).1 q hq
      · simp [findNode, hscan, hring]

theorem findNode_smallest_point_or_wrap_witness :
    exampleRouter.hashRing ≠ [] ∧
    exampleRouter.hashRing.Sorted (fun a b => a ≤ b) ∧
    findNode exampleHash exampleRouter "v1/seg-001.m4s" = some "n2:9002" :=
  ⟨by decide, by decide, by
    have h := (findNode_smallest_point_or_wrap exampleHash exampleRouter "v1/seg-001.m4s"
      (by decide) (by decide)).1
    rw [h]; decide⟩

/-! ## Minimal disruption -/

theorem findNodeInStaticRing_eq_map (hash : String → Nat) (key : String) (ring : List Nat)
    (m : Nat → String) :
    findNodeInStaticRing hash key ring m = (ownerPoint (hash key) ring).map m := by
  unfold findNodeInStaticRing ownerPoint
  cases scanRing (hash key) ring with
  | some r => rfl
  | none => cases ring <;> rfl

theorem findNode_eq_map (hash : String → Nat) (s : NetworkVideoContentService) (key : String) :
    findNode hash s key = (ownerPoint (hash key) s.hashRing).map s.hashToAddr :=
  findNodeInStaticRing_eq_map hash key s.hashRing s.hashToAddr

theorem ownerPoint_mem {h p : Nat} {ring : List Nat} (hp : ownerPoint h ring = some p) :
    p ∈ ring := by
  unfold ownerPoint at hp
  cases hscan : scanRing h ring with
  | some r =>
    rw [hscan] at hp
    cases hp
    exact (scanRing_mem hscan).1
  | none =>
    rw [hscan] at hp
    exact List.mem_of_mem_head? hp

theorem ownerPoint_isSome {h : Nat} {ring : List Nat} (hne : ring ≠ []) :
    ∃ p, ownerPoint h ring = some p := by
  unfold ownerPoint
  cases scanRing h ring with
  | some r => exact ⟨r, rfl⟩
  | none =>
    cases ring with
    | nil => exact absurd rfl hne
    | cons a rs => exact ⟨a, rfl⟩

theorem head_le_of_sorted {a : Nat} {rs : List Nat}
    (hsorted : (a :: rs).Sorted (fun x y => x ≤ y)) : ∀ q ∈ a :: rs, a ≤ q := by
  intro q hq
  rcases List.mem_cons.1 hq with rfl | hq
  · exact le_refl _
  · exact (List.sorted_cons.1 hsorted).1 q hq

/-- The point chosen in a sorted ring is still the point chosen in any sorted sub-ring that
contains it. -/
theorem ownerPoint_subring {h p : Nat} {big small : List Nat}
    (hbig : big.Sorted (fun a b => a ≤ b)) (hsmall : small.Sorted (fun a b => a ≤ b))
    (hsub : ∀ q ∈ small, q ∈ big) (hp : ownerPoint h big = some p) (hmem : p ∈ small) :
    ownerPoint h small = some p := by
  unfold ownerPoint at hp
  cases hscan : scanRing h big with
  | some r =>
    rw [hscan] at hp
    cases hp
    have hleast := scanRing_least hbig hscan
    have hs : scanRing h small = some p :=
      scanRing_eq_of_least hmem (scanRing_mem hscan).2
        (fun q hq hle => hleast q (hsub q hq) hle) hsmall
    simp [ownerPoint, hs]
  | none =>
    rw [hscan] at hp
    have hall := scanRing_eq_none.1 hscan
    have hs : scanRing h small = none :=
      scanRing_eq_none.2 (fun q hq => hall q (hsub q hq))
    cases big with
    | nil => simp at hp
    | cons b0 bs =>
      simp only [List.head?_cons, Option.some.injEq] at hp
      subst hp
      cases small with
      | nil => simp at hmem
      | cons q0 qs =>
        have h1 : q0 ≤ b0 := head_le_of_sorted hsmall b0 hmem
        have h2 : b0 ≤ q0 := head_le_of_sorted hbig q0 (hsub q0 (List.mem_cons_self _ _))
        have : q0 = b0 := by omega
        subst this
        simp [ownerPoint, hs]

theorem registerNode_hashRing (hash : String → Nat) (s : NetworkVideoContentService)
    (addr : String) :
    (registerNode hash s addr).hashRing = sortSlice (s.hashRing ++ [hash addr]) := rfl

theorem registerNode_hashToAddr (hash : String → Nat) (s : NetworkVideoContentService)
    (addr : String) :
    (registerNode hash s addr).hashToAddr = mapSet s.hashToAddr (hash addr) addr := rfl

theorem unregisterNode_hashRing (s : NetworkVideoContentService) (addr : String) :
    (unregisterNode s addr).hashRing
      = sortSlice (s.hashRing.filter (fun h => s.hashToAddr h ≠ addr)) := rfl

theorem unregisterNode_hashToAddr (s : NetworkVideoContentService) (addr : String) :
    (unregisterNode s addr).hashToAddr = s.hashToAddr := rfl

theorem registerNode_ring_ne_nil (hash : String → Nat) (s : NetworkVideoContentService)
    (addr : String) : (registerNode hash s addr).hashRing ≠ [] := by
  intro h
  have hm : hash addr ∈ (registerNode hash s addr).hashRing := by
    rw [registerNode_hashRing, mem_sortSlice]; simp
  rw [h] at hm
  simp at hm

/-- A key that does not resolve to the joining node keeps its owner. -/
theorem findNode_registerNode_of_ne (hash : String → Nat) (s : NetworkVideoContentService)
    (hsorted : s.hashRing.Sorted (fun a b => a ≤ b)) (d k a : String)
    (hnew : findNode hash (registerNode hash s d) k = some a) (hne : a ≠ d) :
    findNode hash s k = some a := by
  rw [findNode_eq_map] at hnew ⊢
  rw [registerNode_hashRing, registerNode_hashToAddr] at hnew
  cases hp : ownerPoint (hash k) (sortSlice (s.hashRing ++ [hash d])) with
  | none => rw [hp] at hnew; simp at hnew
  | some p =>
    rw [hp] at hnew
    simp only [Option.map_some', Option.some.injEq] at hnew
    have hpd : p ≠ hash d := by
      intro h
      apply hne
      rw [← hnew, h]
      simp [mapSet]
    have hmem : p ∈ s.hashRing := by
      have := ownerPoint_mem hp
      rw [mem_sortSlice, List.mem_append] at this
      rcases this with h | h
      · exact h
      · simp at h; exact absurd h hpd
    have hsmall := ownerPoint_subring (sorted_sortSlice _) hsorted
      (fun q hq => by rw [mem_sortSlice]; exact List.mem_append_left _ hq) hp hmem
    rw [hsmall]
    simp only [Option.map_some', Option.some.injEq]
    rw [← hnew]
    simp [mapSet, hpd]

/-- A key that the leaving node did not own keeps its owner. -/
theorem findNode_unregisterNode_of_ne (hash : String → Nat) (s : NetworkVideoContentService)
    (hsorted : s.hashRing.Sorted (fun a b => a ≤ b)) (b k a : String)
    (hold : findNode hash s k = some a) (hne : a ≠ b) :
    findNode hash (unregisterNode s b) k = some a := by
  rw [findNode_eq_map] at hold ⊢
  rw [unregisterNode_hashRing, unregisterNode_hashToAddr]
  cases hp : ownerPoint (hash k) s.hashRing with
  | none => rw [hp] at hold; simp at hold
  | some p =>
    rw [hp] at hold
    simp only [Option.map_some', Option.some.injEq] at hold
    have hmem : p ∈ sortSlice (s.hashRing.filter (fun h => s.hashToAddr h ≠ b)) := by
      rw [mem_sortSlice, List.mem_filter]
      refine ⟨ownerPoint_mem hp, ?_⟩
      simp [hold, hne]
    have hsmall := ownerPoint_subring hsorted (sorted_sortSlice _)
      (fun q hq => by
        rw [mem_sortSlice, List.mem_filter] at hq
        exact hq.1) hp hmem
    rw [hsmall]
    simp [hold]

theorem AddNode_svc_of_ok {hash : String → Nat} {dial : String → Bool} {net : Net}
    {s : NetworkVideoContentService} {w : World} {addr : String} {r : AdminResult}
    (hnew : addr ∉ s.nodes) (hdial : dial addr = true)
    (hr : AddNode hash dial net s w addr = some r) : r.svc = registerNode hash s addr := by
  unfold AddNode at hr
  rw [if_neg hnew, if_pos hdial] at hr
  cases hloop : addNodeLoop hash net (registerNode hash s addr) addr (sortSlice s.hashRing)
      (snapshotMap s) s.files w 0 with
  | none => rw [hloop] at hr; cases hr
  | some res =>
    obtain ⟨w1, m⟩ := res
    rw [hloop] at hr
    cases hr
    rfl

theorem RemoveNode_svc {hash : String → Nat} {net : Net}
    {s : NetworkVideoContentService} {w : World} {addr : String} {r : AdminResult}
    (hr : RemoveNode hash net s w addr = some r) : r.svc = unregisterNode s addr := by
  unfold RemoveNode at hr
  cases hloop : removeNodeLoop hash net (unregisterNode s addr) addr (s.clients addr)
      (sortSlice s.hashRing) (snapshotMap s) s.files w 0 with
  | none => rw [hloop] at hr; cases hr
  | some res =>
    obtain ⟨w1, m⟩ := res
    rw [hloop] at hr
    cases hr
    rfl

/-- C2. Minimal disruption. For a non-empty ring sorted ascending, a node `d` and a key `k`:
the key has an owner before and after `d` joins (the ring state `AddNode` installs), and if
the owner after the join is not `d` it is the owner before the join; and when `d` leaves (the
ring state `RemoveNode` installs), a key whose owner was not `d` keeps its owner. The
statement needs neither distinct ring points nor that the point of `d` is new. -/
theorem minimal_disruption (hash : String → Nat) (s : NetworkVideoContentService)
    (hne : s.hashRing ≠ []) (hsorted : s.hashRing.Sorted (fun a b => a ≤ b))
    (d k : String) :
    ∃ old new, findNode hash s k = some old ∧
      findNode hash (registerNode hash s d) k = some new ∧
      (new ≠ d → new = old) ∧
      (old ≠ d → findNode hash (unregisterNode s d) k = some old) := by
  obtain ⟨p, hp⟩ := ownerPoint_isSome (h := hash k) hne
  obtain ⟨q, hq⟩ := ownerPoint_isSome (h := hash k) (registerNode_ring_ne_nil hash s d)
  have hold : findNode hash s k = some (s.hashToAddr p) := by
    rw [findNode_eq_map, hp]; rfl
  have hnew : findNode hash (registerNode hash s d) k
      = some ((registerNode hash s d).hashToAddr q) := by
    rw [findNode_eq_map, hq]; rfl
  refine ⟨_, _, hold, hnew, ?_, ?_⟩
  · intro hnd
    have := findNode_registerNode_of_ne hash s hsorted d k _ hnew hnd
    rw [hold] at this
    exact (Option.some.inj this).symm
  · intro hod
    exact findNode_unregisterNode_of_ne hash s hsorted d k _ hold hod

theorem minimal_disruption_witness :
    exampleRouter.hashRing ≠ [] ∧
    ∃ old new, findNode exampleHash exampleRouter "v1/seg-002.m4s" = some old ∧
      findNode exampleHash (registerNode exampleHash exampleRouter "n4:9004")
        "v1/seg-002.m4s" = some new ∧
      (new ≠ "n4:9004" → new = old) ∧
      (old ≠ "n4:9004" →
        findNode exampleHash (unregisterNode exampleRouter "n4:9004") "v1/seg-002.m4s"
          = some old) :=
  ⟨by decide, minimal_disruption exampleHash exampleRouter (by decide) (by decide)
    "n4:9004" "v1/seg-002.m4s"⟩

/-! ## Duplicate node -/

/-- C9. DuplicateNode: when the address is already in the node list, `AddNode` returns the
error "node already exists", the router state (node list, ring, hashToAddr map, client
registry, key index) is the state before the call, and the world, which records every RPC
sent and every file, is unchanged: no RPC is sent. -/
theorem AddNode_duplicate_rejected (hash : String → Nat) (dial : String → Bool) (net : Net)
    (s : NetworkVideoContentService) (w : World) (addr : String) (hreg : addr ∈ s.nodes) :
    AddNode hash dial net s w addr
      = some { svc := s, world := w, resp := Except.error "node already exists" } := by
  unfold AddNode
  rw [if_pos hreg]

theorem AddNode_duplicate_rejected_witness :
    "n1:9001" ∈ exampleRouter.nodes ∧
    AddNode exampleHash (fun _ => true) Net.allOk exampleRouter emptyWorld "n1:9001"
      = some { svc := exampleRouter, world := emptyWorld,
               resp := Except.error "node already exists" } :=
  ⟨by decide, AddNode_duplicate_rejected exampleHash (fun _ => true) Net.allOk exampleRouter
    emptyWorld "n1:9001" (by decide)⟩


/-! ## Keys and paths -/

theorem splitFirstSlash_join {l a b : List Char} (h : splitFirstSlash l = some (a, b)) :
    a ++ '/' :: b = l := by
  induction l generalizing a b with
  | nil => simp [splitFirstSlash] at h
  | cons c cs ih =>
    by_cases hc : c = '/'
    · simp only [splitFirstSlash, hc, if_true, Option.some.injEq, Prod.mk.injEq] at h
      obtain ⟨rfl, rfl⟩ := h
      simp [hc]
    · simp only [splitFirstSlash, hc, if_false] at h
      cases hrec : splitFirstSlash cs with
      | none => rw [hrec] at h; cases h
      | some ab =>
        obtain ⟨a1, b1⟩ := ab
        rw [hrec] at h
        simp only [Option.some.injEq, Prod.mk.injEq] at h
        obtain ⟨rfl, rfl⟩ := h
        simp [ih hrec]

theorem splitFirstSlash_isSome_of_mem {l : List Char} (h : '/' ∈ l) :
    splitFirstSlash l ≠ none := by
  induction l with
  | nil => simp at h
  | cons c cs ih =>
    by_cases hc : c = '/'
    · simp [splitFirstSlash, hc]
    · have hm : '/' ∈ cs := by
        rcases List.mem_cons.1 h with h | h
        · exact absurd h.symm hc
        · exact h
      simp only [splitFirstSlash, hc, if_false]
      cases hrec : splitFirstSlash cs with
      | none => exact absurd hrec (ih hm)
      | some ab => simp

/-- The two parts `SplitN` returns name the same file as the key. -/
theorem splitKey_relPath {key v f : String} (h : splitKey key = some (v, f)) :
    relPath v f = key := by
  unfold splitKey at h
  cases hs : splitFirstSlash key.data with
  | none => rw [hs] at h; cases h
  | some ab =>
    obtain ⟨a, b⟩ := ab
    rw [hs] at h
    simp only [Option.some.injEq, Prod.mk.injEq] at h
    obtain ⟨rfl, rfl⟩ := h
    apply String.ext
    simp only [relPath, String.data_append]
    have := splitFirstSlash_join hs
    simpa using this

/-- A key built by `Read` and `Write` always splits. -/
theorem splitKey_key_ne_none (videoId filename : String) :
    splitKey (videoId ++ "/" ++ filename) ≠ none := by
  unfold splitKey
  have hm : '/' ∈ (videoId ++ "/" ++ filename).data := by
    simp [String.data_append]
  cases hs : splitFirstSlash (videoId ++ "/" ++ filename).data with
  | none => exact absurd hs (splitFirstSlash_isSome_of_mem hm)
  | some ab => simp


/-! ## Join: the migration loop of AddNode -/

theorem findNodeInStaticRing_isSome (hash : String → Nat) (key : String) {ring : List Nat}
    (m : Nat → String) (hne : ring ≠ []) :
    ∃ p ∈ ring, findNodeInStaticRing hash key ring m = some (m p) := by
  obtain ⟨p, hp⟩ := ownerPoint_isSome (h := hash key) hne
  exact ⟨p, ownerPoint_mem hp, by rw [findNodeInStaticRing_eq_map, hp]; rfl⟩

theorem findNode_isSome (hash : String → Nat) (s : NetworkVideoContentService) (key : String)
    (hne : s.hashRing ≠ []) :
    ∃ p ∈ s.hashRing, findNode hash s key = some (s.hashToAddr p) :=
  findNodeInStaticRing_isSome hash key s.hashToAddr hne

/-- Loop head of `AddNode`: the entry is not selected for migration. -/
theorem addNodeLoop_skip {hash : String → Nat} {net : Net} {s : NetworkVideoContentService}
    {addr : String} {oldRing : List Nat} {oldMap : Nat → String} {key : String}
    {data : Bytes} {o n : String} (rest : List (String × Bytes)) (w : World) (m : Nat)
    (ho : findNodeInStaticRing hash key oldRing oldMap = some o)
    (hn : findNode hash s key = some n) (hc : ¬ (n = addr ∧ o ≠ n)) :
    addNodeLoop hash net s addr oldRing oldMap ((key, data) :: rest) w m
      = addNodeLoop hash net s addr oldRing oldMap rest w m := by
  rw [addNodeLoop]
  simp only [ho, hn]
  rw [if_neg hc]

/-- Loop head of `AddNode`: the entry is selected; its write and delete are issued. -/
theorem addNodeLoop_move {hash : String → Nat} {net : Net} {s : NetworkVideoContentService}
    {addr : String} {oldRing : List Nat} {oldMap : Nat → String} {key : String}
    {data : Bytes} {o v f : String} (rest : List (String × Bytes)) (w : World) (m : Nat)
    (ho : findNodeInStaticRing hash key oldRing oldMap = some o)
    (hn : findNode hash s key = some addr) (hc : o ≠ addr)
    (hsk : splitKey key = some (v, f)) (hcn : s.clients addr = true)
    (hco : s.clients o = true) :
    addNodeLoop hash net s addr oldRing oldMap ((key, data) :: rest) w m
      = if net.writeOk addr key then
          addNodeLoop hash net s addr oldRing oldMap rest
            (rpcDeleteFile net (rpcWriteFile net w addr v f data).1 o v f).1 (m + 1)
        else
          addNodeLoop hash net s addr oldRing oldMap rest
            (rpcWriteFile net w addr v f data).1 m := by
  have hpath := splitKey_relPath hsk
  rw [addNodeLoop]
  simp only [ho, hn, hsk]
  simp only [true_and, ne_eq, hc, not_false_eq_true, if_true, hcn]
  by_cases hw : net.writeOk addr key = true
  · rw [if_pos hw]
    simp only [rpcWriteFile, hpath, hw, if_true, hco]
  · rw [if_neg hw]
    simp only [rpcWriteFile, hpath, hw]
    simp

/-- The loop of `AddNode` runs to the end and counts the keys whose new owner is `addr`,
whose old owner is not, and whose `WriteFile` succeeds. -/
theorem addNodeLoop_count (hash : String → Nat) (net : Net) (s : NetworkVideoContentService)
    (addr : String) (oldRing : List Nat) (oldMap : Nat → String)
    (hold : oldRing ≠ []) (hnew : s.hashRing ≠ []) (hcn : s.clients addr = true)
    (hco : ∀ h ∈ oldRing, s.clients (oldMap h) = true)
    (l : List (String × Bytes)) (hsplit : ∀ kd ∈ l, splitKey kd.1 ≠ none)
    (w : World) (m : Nat) :
    ∃ w1, addNodeLoop hash net s addr oldRing oldMap l w m
      = some (w1, m + (l.filter (addLoopCounts hash net s addr oldRing oldMap)).length) := by
  induction l generalizing w m with
  | nil => exact ⟨w, by simp [addNodeLoop]⟩
  | cons kd rest ih =>
    obtain ⟨key, data⟩ := kd
    have hrest : ∀ kd ∈ rest, splitKey kd.1 ≠ none :=
      fun kd hkd => hsplit kd (List.mem_cons_of_mem _ hkd)
    obtain ⟨p, hp, hpo⟩ := findNodeInStaticRing_isSome hash key oldMap hold
    obtain ⟨q, _, hqn⟩ := findNode_isSome hash s key hnew
    have hk := hsplit (key, data) (List.mem_cons_self _ _)
    cases hsk : splitKey key with
    | none => exact absurd hsk hk
    | some vf =>
      obtain ⟨v, f⟩ := vf
      by_cases hc : s.hashToAddr q = addr ∧ oldMap p ≠ s.hashToAddr q
      · obtain ⟨hc1, hc2⟩ := hc
        rw [hc1] at hqn hc2
        rw [addNodeLoop_move rest w m hpo hqn hc2 hsk hcn (hco p hp)]
        by_cases hw : net.writeOk addr key = true
        · have hpred : addLoopCounts hash net s addr oldRing oldMap (key, data) = true := by
            simp [addLoopCounts, hpo, hqn, hc2, hw]
          obtain ⟨w1, hw1⟩ := ih hrest
            (rpcDeleteFile net (rpcWriteFile net w addr v f data).1 (oldMap p) v f).1 (m + 1)
          refine ⟨w1, ?_⟩
          rw [if_pos hw, hw1, List.filter_cons, if_pos hpred, List.length_cons]
          congr 2
          omega
        · have hpred : ¬ addLoopCounts hash net s addr oldRing oldMap (key, data) = true := by
            simp [addLoopCounts, hw]
          obtain ⟨w1, hw1⟩ := ih hrest (rpcWriteFile net w addr v f data).1 m
          refine ⟨w1, ?_⟩
          rw [if_neg hw, hw1, List.filter_cons, if_neg hpred]
      · have hpred : ¬ addLoopCounts hash net s addr oldRing oldMap (key, data) = true := by
          simp only [addLoopCounts, hpo, hqn, Option.some.injEq, ne_eq, Bool.and_eq_true,
            decide_eq_true_eq, not_and]
          intro h1 _
          exact absurd ⟨h1.1, by rw [h1.1]; exact h1.2⟩ hc
        obtain ⟨w1, hw1⟩ := ih hrest w m
        refine ⟨w1, ?_⟩
        rw [addNodeLoop_skip rest w m hpo hqn hc, hw1, List.filter_cons, if_neg hpred]


theorem toInt32_of_lt {n : Nat} (h : n < 2147483648) : toInt32 n = (n : Int) := by
  unfold toInt32
  have : (n + 2147483648) % 4294967296 = n + 2147483648 := Nat.mod_eq_of_lt (by omega)
  rw [this]
  push_cast
  omega

/-- The snapshot map agrees with the live map on every lookup in a ring made of the live
ring points. -/
theorem findNodeInStaticRing_snapshot (hash : String → Nat) (s : NetworkVideoContentService)
    (key : String) (ring : List Nat) (hsub : ∀ h ∈ ring, h ∈ s.hashRing) :
    findNodeInStaticRing hash key ring (snapshotMap s)
      = findNodeInStaticRing hash key ring s.hashToAddr := by
  rw [findNodeInStaticRing_eq_map, findNodeInStaticRing_eq_map]
  cases hp : ownerPoint (hash key) ring with
  | none => rfl
  | some p =>
    have := hsub p (ownerPoint_mem hp)
    simp [snapshotMap, this]

/-- On a sorted ring the snapshot lookup of `AddNode` and `RemoveNode` is the live lookup
before the call. -/
theorem findNodeInStaticRing_old (hash : String → Nat) (s : NetworkVideoContentService)
    (key : String) (hsorted : s.hashRing.Sorted (fun a b => a ≤ b)) :
    findNodeInStaticRing hash key (sortSlice s.hashRing) (snapshotMap s)
      = findNode hash s key := by
  rw [findNodeInStaticRing_snapshot hash s key _ (fun h hh => mem_sortSlice.1 hh),
    sortSlice_eq_self hsorted]
  rfl

theorem WellFormed.ring_mem {hash : String → Nat} {s : NetworkVideoContentService}
    (hwf : WellFormed hash s) {h : Nat} (hh : h ∈ s.hashRing) :
    ∃ n ∈ s.nodes, hash n = h := by
  have := (hwf.ring_perm.mem_iff).1 hh
  simpa using this

theorem WellFormed.consistent {hash : String → Nat} {s : NetworkVideoContentService}
    (hwf : WellFormed hash s) : Consistent s where
  sorted := hwf.sorted
  ring_nodes := by
    intro h hh
    obtain ⟨n, hn, rfl⟩ := hwf.ring_mem hh
    rw [hwf.map_ok n hn]; exact hn
  ring_clients := by
    intro h hh
    obtain ⟨n, hn, rfl⟩ := hwf.ring_mem hh
    rw [hwf.map_ok n hn]; exact hwf.clients_ok n hn
  keys_split := hwf.keys_split
  ring_of_files := by
    intro hf hr
    have hn := hwf.nodes_of_files hf
    have := hwf.ring_perm.length_eq
    rw [hr] at this
    simp only [List.length_nil, List.length_map] at this
    exact hn (List.length_eq_zero.1 this.symm)

/-- The count of `AddNode` on a consistent router (every registration so far completed). For
an address `D` that is not listed and can be dialled, `AddNode(D)` returns without error or
panic, installs the ring with `D`, and returns as
`migratedFileCount` the number of indexed keys whose owner under the new ring is `D`, whose
owner under the old ring is not `D`, and whose `WriteFile` to `D` succeeded. The count does
not depend on the outcome of any `DeleteFile`; a failed `WriteFile` leaves its key uncounted
and the call still succeeds. The `int32` conversion is exact below 2^31 indexed keys. -/
theorem AddNode_migrated_count (hash : String → Nat) (dial : String → Bool) (net : Net)
    (s : NetworkVideoContentService) (w : World) (D : String) (hcons : Consistent s)
    (hnew : D ∉ s.nodes) (hdial : dial D = true) :
    (∃ w1, AddNode hash dial net s w D
      = some { svc := registerNode hash s D, world := w1,
               resp := Except.ok (toInt32
                 (s.files.filter (fun kd => addNodeMoved hash net s D kd.1)).length) }) ∧
    (s.files.length < 2147483648 →
      toInt32 (s.files.filter (fun kd => addNodeMoved hash net s D kd.1)).length
        = ((s.files.filter (fun kd => addNodeMoved hash net s D kd.1)).length : Int)) := by
  constructor
  · have hfilter : s.files.filter (addLoopCounts hash net (registerNode hash s D) D
        (sortSlice s.hashRing) (snapshotMap s))
        = s.files.filter (fun kd => addNodeMoved hash net s D kd.1) := by
      apply List.filter_congr
      intro kd _
      simp only [addLoopCounts, addNodeMoved, findNodeInStaticRing_old hash s kd.1 hcons.sorted]
    unfold AddNode
    rw [if_neg hnew, if_pos hdial]
    by_cases hf : s.files = []
    · refine ⟨w, ?_⟩
      rw [hf]
      simp [addNodeLoop]
    · have hold : sortSlice s.hashRing ≠ [] := by
        rw [sortSlice_eq_self hcons.sorted]; exact hcons.ring_of_files hf
      have hcn : (registerNode hash s D).clients D = true := by
        simp [registerNode, sortRing, mapSet]
      have hco : ∀ h ∈ sortSlice s.hashRing,
          (registerNode hash s D).clients (snapshotMap s h) = true := by
        intro h hh
        have hh' := mem_sortSlice.1 hh
        have := hcons.ring_clients h hh'
        simp [registerNode, sortRing, mapSet, snapshotMap, hh', this]
      obtain ⟨w1, hw1⟩ := addNodeLoop_count hash net (registerNode hash s D) D
        (sortSlice s.hashRing) (snapshotMap s) hold (registerNode_ring_ne_nil hash s D)
        hcn hco s.files hcons.keys_split w 0
      refine ⟨w1, ?_⟩
      rw [hw1, hfilter]
      simp
  · intro hlen
    apply toInt32_of_lt
    exact lt_of_le_of_lt (List.length_filter_le _ _) hlen

theorem exampleRouterWithFiles_wellFormed : WellFormed exampleHash exampleRouterWithFiles where
  sorted := by decide
  ring_perm := by decide
  hash_nodup := by decide
  map_ok := by decide
  clients_ok := by decide
  keys_split := by decide
  keys_nodup := by decide
  nodes_of_files := by decide

theorem AddNode_migrated_count_witness :
    "n4:9004" ∉ exampleRouterWithFiles.nodes ∧
    (exampleRouterWithFiles.files.filter
      (fun kd => addNodeMoved exampleHash Net.allOk exampleRouterWithFiles "n4:9004" kd.1)).length
      = 1 ∧
    ((∃ w1, AddNode exampleHash exampleDial Net.allOk exampleRouterWithFiles exampleWorld
        "n4:9004"
      = some { svc := registerNode exampleHash exampleRouterWithFiles "n4:9004", world := w1,
               resp := Except.ok (toInt32
                 (exampleRouterWithFiles.files.filter (fun kd =>
                   addNodeMoved exampleHash Net.allOk exampleRouterWithFiles "n4:9004"
                     kd.1)).length) }) ∧
    (exampleRouterWithFiles.files.length < 2147483648 →
      toInt32 (exampleRouterWithFiles.files.filter (fun kd =>
          addNodeMoved exampleHash Net.allOk exampleRouterWithFiles "n4:9004" kd.1)).length
        = ((exampleRouterWithFiles.files.filter (fun kd =>
          addNodeMoved exampleHash Net.allOk exampleRouterWithFiles "n4:9004"
            kd.1)).length : Int))) :=
  ⟨by decide, by decide,
    AddNode_migrated_count exampleHash exampleDial Net.allOk exampleRouterWithFiles
      exampleWorld "n4:9004" exampleRouterWithFiles_wellFormed.consistent (by decide)
      (by decide)⟩


/-! ## Leave: the migration loop of RemoveNode -/

/-- Loop head of `RemoveNode`: the entry was not owned by the removed node. -/
theorem removeNodeLoop_skip {hash : String → Nat} {net : Net}
    {s : NetworkVideoContentService} {addr : String} {oc : Bool} {oldRing : List Nat}
    {oldMap : Nat → String} {key : String} {data : Bytes} {o : String}
    (rest : List (String × Bytes)) (w : World) (m : Nat)
    (ho : findNodeInStaticRing hash key oldRing oldMap = some o) (hc : o ≠ addr) :
    removeNodeLoop hash net s addr oc oldRing oldMap ((key, data) :: rest) w m
      = removeNodeLoop hash net s addr oc oldRing oldMap rest w m := by
  rw [removeNodeLoop]
  simp only [ho]
  rw [if_pos hc]

/-- Loop head of `RemoveNode`: the entry was owned by the removed node; its write and delete
are issued. -/
theorem removeNodeLoop_move {hash : String → Nat} {net : Net}
    {s : NetworkVideoContentService} {addr : String} {oldRing : List Nat}
    {oldMap : Nat → String} {key : String} {data : Bytes} {n v f : String}
    (rest : List (String × Bytes)) (w : World) (m : Nat)
    (ho : findNodeInStaticRing hash key oldRing oldMap = some addr)
    (hn : findNode hash s key = some n) (hc : n ≠ addr)
    (hsk : splitKey key = some (v, f)) (hcn : s.clients n = true) :
    removeNodeLoop hash net s addr true oldRing oldMap ((key, data) :: rest) w m
      = if net.writeOk n key then
          removeNodeLoop hash net s addr true oldRing oldMap rest
            (rpcDeleteFile net (rpcWriteFile net w n v f data).1 addr v f).1 (m + 1)
        else
          removeNodeLoop hash net s addr true oldRing oldMap rest
            (rpcWriteFile net w n v f data).1 m := by
  have hpath := splitKey_relPath hsk
  rw [removeNodeLoop]
  simp only [ho, hn, hsk]
  simp only [ne_eq, not_true_eq_false, if_false, hc, hcn, if_true]
  by_cases hw : net.writeOk n key = true
  · rw [if_pos hw]
    simp only [rpcWriteFile, hpath, hw, if_true]
  · rw [if_neg hw]
    simp only [rpcWriteFile, hpath, hw]
    simp

/-- The loop of `RemoveNode` runs to the end and counts the keys whose old owner is `addr`
and whose `WriteFile` to the new owner succeeds. -/
theorem removeNodeLoop_count (hash : String → Nat) (net : Net)
    (s : NetworkVideoContentService) (addr : String) (oldRing : List Nat)
    (oldMap : Nat → String) (hold : oldRing ≠ []) (hnew : s.hashRing ≠ [])
    (hring : ∀ h ∈ s.hashRing, s.hashToAddr h ≠ addr ∧ s.clients (s.hashToAddr h) = true)
    (l : List (String × Bytes)) (hsplit : ∀ kd ∈ l, splitKey kd.1 ≠ none)
    (w : World) (m : Nat) :
    ∃ w1, removeNodeLoop hash net s addr true oldRing oldMap l w m
      = some (w1, m + (l.filter (removeLoopCounts hash net s addr oldRing oldMap)).length) := by
  induction l generalizing w m with
  | nil => exact ⟨w, by simp [removeNodeLoop]⟩
  | cons kd rest ih =>
    obtain ⟨key, data⟩ := kd
    have hrest : ∀ kd ∈ rest, splitKey kd.1 ≠ none :=
      fun kd hkd => hsplit kd (List.mem_cons_of_mem _ hkd)
    obtain ⟨p, _, hpo⟩ := findNodeInStaticRing_isSome hash key oldMap hold
    obtain ⟨q, hq, hqn⟩ := findNode_isSome hash s key hnew
    have hk := hsplit (key, data) (List.mem_cons_self _ _)
    cases hsk : splitKey key with
    | none => exact absurd hsk hk
    | some vf =>
      obtain ⟨v, f⟩ := vf
      by_cases hc : oldMap p = addr
      · rw [hc] at hpo
        rw [removeNodeLoop_move rest w m hpo hqn (hring q hq).1 hsk (hring q hq).2]
        by_cases hw : net.writeOk (s.hashToAddr q) key = true
        · have hpred : removeLoopCounts hash net s addr oldRing oldMap (key, data) = true := by
            simp [removeLoopCounts, hpo, hqn, (hring q hq).1, hw]
          obtain ⟨w1, hw1⟩ := ih hrest
            (rpcDeleteFile net (rpcWriteFile net w (s.hashToAddr q) v f data).1 addr v f).1
            (m + 1)
          refine ⟨w1, ?_⟩
          rw [if_pos hw, hw1, List.filter_cons, if_pos hpred, List.length_cons]
          congr 2
          omega
        · have hpred : ¬ removeLoopCounts hash net s addr oldRing oldMap (key, data)
              = true := by
            simp [removeLoopCounts, hqn, hw]
          obtain ⟨w1, hw1⟩ := ih hrest (rpcWriteFile net w (s.hashToAddr q) v f data).1 m
          refine ⟨w1, ?_⟩
          rw [if_neg hw, hw1, List.filter_cons, if_neg hpred]
      · have hpred : ¬ removeLoopCounts hash net s addr oldRing oldMap (key, data) = true := by
          simp [removeLoopCounts, hpo, hc]
        obtain ⟨w1, hw1⟩ := ih hrest w m
        refine ⟨w1, ?_⟩
        rw [removeNodeLoop_skip rest w m hpo hc, hw1, List.filter_cons, if_neg hpred]

theorem mem_unregisterNode_ring {s : NetworkVideoContentService} {addr : String} {h : Nat} :
    h ∈ (unregisterNode s addr).hashRing ↔ h ∈ s.hashRing ∧ s.hashToAddr h ≠ addr := by
  rw [unregisterNode_hashRing, mem_sortSlice, List.mem_filter]
  simp

theorem exists_ne_of_nodup {l : List String} (hnd : l.Nodup) (hlen : 2 ≤ l.length)
    (b : String) : ∃ n ∈ l, n ≠ b := by
  match l, hnd, hlen with
  | x :: y :: _, hnd, _ =>
    by_cases hx : x = b
    · refine ⟨y, by simp, ?_⟩
      intro hy
      have : x ≠ y := by
        intro hxy
        rw [List.nodup_cons] at hnd
        exact hnd.1 (by rw [hxy]; exact List.mem_cons_self _ _)
      exact this (hx.trans hy.symm)
    · exact ⟨x, by simp, hx⟩

/-- In a well-formed router, removing a node while another one is listed leaves a ring with a
point. -/
theorem unregisterNode_ring_ne_nil {hash : String → Nat} {s : NetworkVideoContentService}
    (hwf : WellFormed hash s) {addr n : String} (hn : n ∈ s.nodes) (hne : n ≠ addr) :
    (unregisterNode s addr).hashRing ≠ [] := by
  have hmem : hash n ∈ (unregisterNode s addr).hashRing := by
    rw [mem_unregisterNode_ring]
    refine ⟨(hwf.ring_perm.mem_iff).2 (List.mem_map_of_mem _ hn), ?_⟩
    rw [hwf.map_ok n hn]; exact hne
  intro h
  rw [h] at hmem
  simp at hmem


theorem unregisterNode_ring_props {s : NetworkVideoContentService} (hcons : Consistent s)
    (addr : String) :
    ∀ h ∈ (unregisterNode s addr).hashRing,
      (unregisterNode s addr).hashToAddr h ≠ addr ∧
      (unregisterNode s addr).clients ((unregisterNode s addr).hashToAddr h) = true := by
  intro h hh
  obtain ⟨h1, h2⟩ := mem_unregisterNode_ring.1 hh
  refine ⟨h2, ?_⟩
  have := hcons.ring_clients h h1
  simp [unregisterNode, sortRing, mapSet, h2, this]

/-- After a removal no key resolves to the removed node. -/
theorem findNode_unregisterNode_ne (hash : String → Nat) (s : NetworkVideoContentService)
    (addr key a : String) (h : findNode hash (unregisterNode s addr) key = some a) :
    a ≠ addr := by
  rw [findNode_eq_map] at h
  cases hp : ownerPoint (hash key) (unregisterNode s addr).hashRing with
  | none => rw [hp] at h; simp at h
  | some p =>
    rw [hp] at h
    simp only [Option.map_some', Option.some.injEq] at h
    rw [← h]
    exact (mem_unregisterNode_ring.1 (ownerPoint_mem hp)).2

/-- The count of `RemoveNode` on a well-formed router (distinct hash points, every listed node
registered with ring point and client) with at least two nodes: `RemoveNode(B)` of a listed node with all RPCs
succeeding returns without error or panic, as `migratedFileCount` the number of indexed keys
whose owner under the old ring was `B`; afterwards every key resolves to a node other than
`B`. The `int32` conversion is exact below 2^31 indexed keys. -/
theorem RemoveNode_migrated_count (hash : String → Nat) (s : NetworkVideoContentService)
    (w : World) (B : String) (hwf : WellFormed hash s) (hB : B ∈ s.nodes)
    (h2 : 2 ≤ s.nodes.length) :
    (∃ w1, RemoveNode hash Net.allOk s w B
      = some { svc := unregisterNode s B, world := w1,
               resp := Except.ok (toInt32
                 (s.files.filter (fun kd => decide (findNode hash s kd.1 = some B))).length) }) ∧
    (∀ k, ∃ a, findNode hash (unregisterNode s B) k = some a ∧ a ≠ B) ∧
    (s.files.length < 2147483648 →
      toInt32 (s.files.filter (fun kd => decide (findNode hash s kd.1 = some B))).length
        = ((s.files.filter (fun kd => decide (findNode hash s kd.1 = some B))).length : Int)) := by
  have hcons := hwf.consistent
  obtain ⟨n, hn, hne⟩ := exists_ne_of_nodup (List.Nodup.of_map _ hwf.hash_nodup) h2 B
  have hnew := unregisterNode_ring_ne_nil hwf hn hne
  have hold : sortSlice s.hashRing ≠ [] := by
    intro h
    have hm : hash n ∈ sortSlice s.hashRing :=
      mem_sortSlice.2 ((hwf.ring_perm.mem_iff).2 (List.mem_map_of_mem _ hn))
    rw [h] at hm
    simp at hm
  refine ⟨?_, ?_, ?_⟩
  · have hfilter : s.files.filter (removeLoopCounts hash Net.allOk (unregisterNode s B) B
        (sortSlice s.hashRing) (snapshotMap s))
        = s.files.filter (fun kd => decide (findNode hash s kd.1 = some B)) := by
      apply List.filter_congr
      intro kd _
      obtain ⟨q, hq, hqn⟩ := findNode_isSome hash (unregisterNode s B) kd.1 hnew
      have hqb := (unregisterNode_ring_props hcons B q hq).1
      simp [removeLoopCounts, findNodeInStaticRing_old hash s kd.1 hcons.sorted, hqn, hqb,
        Net.allOk]
    obtain ⟨w1, hw1⟩ := removeNodeLoop_count hash Net.allOk (unregisterNode s B) B
      (sortSlice s.hashRing) (snapshotMap s) hold hnew (unregisterNode_ring_props hcons B)
      s.files hcons.keys_split w 0
    refine ⟨w1, ?_⟩
    unfold RemoveNode
    rw [hwf.clients_ok B hB, hw1, hfilter]
    simp
  · intro k
    obtain ⟨q, _, hqn⟩ := findNode_isSome hash (unregisterNode s B) k hnew
    exact ⟨_, hqn, findNode_unregisterNode_ne hash s B k _ hqn⟩
  · intro hlen
    apply toInt32_of_lt
    exact lt_of_le_of_lt (List.length_filter_le _ _) hlen

theorem RemoveNode_migrated_count_witness :
    "n2:9002" ∈ exampleRouterWithFiles.nodes ∧
    (exampleRouterWithFiles.files.filter
      (fun kd => decide (findNode exampleHash exampleRouterWithFiles kd.1 = some "n2:9002"))).length
      = 2 ∧
    ((∃ w1, RemoveNode exampleHash Net.allOk exampleRouterWithFiles exampleWorld "n2:9002"
      = some { svc := unregisterNode exampleRouterWithFiles "n2:9002", world := w1,
               resp := Except.ok (toInt32
                 (exampleRouterWithFiles.files.filter (fun kd =>
                   decide (findNode exampleHash exampleRouterWithFiles kd.1
                     = some "n2:9002"))).length) }) ∧
    (∀ k, ∃ a, findNode exampleHash (unregisterNode exampleRouterWithFiles "n2:9002") k
      = some a ∧ a ≠ "n2:9002") ∧
    (exampleRouterWithFiles.files.length < 2147483648 →
      toInt32 (exampleRouterWithFiles.files.filter (fun kd =>
          decide (findNode exampleHash exampleRouterWithFiles kd.1 = some "n2:9002"))).length
        = ((exampleRouterWithFiles.files.filter (fun kd =>
          decide (findNode exampleHash exampleRouterWithFiles kd.1
            = some "n2:9002"))).length : Int))) :=
  ⟨by decide, by decide,
    RemoveNode_migrated_count exampleHash exampleRouterWithFiles exampleWorld "n2:9002"
      exampleRouterWithFiles_wellFormed (by decide) (by decide)⟩


/-! ## Effect of the RPCs on the stored files -/

theorem rpcWriteFile_baseDir (net : Net) (w : World) (a v f : String) (d : Bytes) :
    (rpcWriteFile net w a v f d).1.baseDir = w.baseDir := by
  unfold rpcWriteFile
  by_cases hw : net.writeOk a (relPath v f) = true
  · simp [hw]
  · simp [hw]

theorem rpcDeleteFile_baseDir (net : Net) (w : World) (a v f : String) :
    (rpcDeleteFile net w a v f).1.baseDir = w.baseDir := by
  unfold rpcDeleteFile
  by_cases hd : net.deleteOk a (relPath v f) = true
  · simp only [hd, if_true]
    cases w.disk a (storagePath (w.baseDir a) v f) with
    | none => rfl
    | some x => rfl
  · simp [hd]

theorem rpcWriteFile_disk_other (net : Net) (w : World) (a v f : String) (d : Bytes)
    (a1 p : String) (hp : a1 ≠ a ∨ p ≠ storagePath (w.baseDir a) v f) :
    (rpcWriteFile net w a v f d).1.disk a1 p = w.disk a1 p := by
  have hnot : ¬ (a1 = a ∧ p = storagePath (w.baseDir a) v f) := by
    rintro ⟨h1, h2⟩
    rcases hp with h | h
    · exact h h1
    · exact h h2
  unfold rpcWriteFile
  by_cases hw : net.writeOk a (relPath v f) = true
  · simp [hw, diskSet, hnot]
  · simp [hw]

theorem rpcWriteFile_disk_ok (net : Net) (w : World) (a v f : String) (d : Bytes)
    (hw : net.writeOk a (relPath v f) = true) :
    (rpcWriteFile net w a v f d).1.disk a (storagePath (w.baseDir a) v f) = some d := by
  unfold rpcWriteFile
  simp [hw, diskSet]

theorem rpcWriteFile_disk_fail (net : Net) (w : World) (a v f : String) (d : Bytes)
    (hw : ¬ net.writeOk a (relPath v f) = true) :
    (rpcWriteFile net w a v f d).1.disk = w.disk := by
  unfold rpcWriteFile
  simp [hw]

theorem rpcDeleteFile_disk_other (net : Net) (w : World) (a v f : String)
    (a1 p : String) (hp : a1 ≠ a ∨ p ≠ storagePath (w.baseDir a) v f) :
    (rpcDeleteFile net w a v f).1.disk a1 p = w.disk a1 p := by
  have hnot : ¬ (a1 = a ∧ p = storagePath (w.baseDir a) v f) := by
    rintro ⟨h1, h2⟩
    rcases hp with h | h
    · exact h h1
    · exact h h2
  unfold rpcDeleteFile
  by_cases hd : net.deleteOk a (relPath v f) = true
  · simp only [hd, if_true]
    cases w.disk a (storagePath (w.baseDir a) v f) with
    | none => rfl
    | some x => simp [diskSet, hnot]
  · simp [hd]

/-- Below a non-empty base directory the path the storage handlers join is the cleaned path
of the key `videoId/filename`. -/
theorem storagePath_eq_keyPath {baseDir : String} (hb : baseDir ≠ "") (v f : String) :
    storagePath baseDir v f = keyPath baseDir (relPath v f) := by
  simp only [storagePath, filepathJoin, List.dropWhile, hb, decide_False, keyPath, joinElems,
    relPath]

/-- Two distinct keys of an alias-free list name different files on every node. -/
theorem NoAlias.keyPath_ne {baseDir : String → String} {keys : List String}
    (hna : NoAlias baseDir keys) (a : String) {k1 k2 : String} (h1 : k1 ∈ keys)
    (h2 : k2 ∈ keys) (hne : k1 ≠ k2) :
    keyPath (baseDir a) k1 ≠ keyPath (baseDir a) k2 :=
  fun h => hne (hna.2 a k1 h1 k2 h2 h)

/-- A `WriteFile` for a key of an alias-free list leaves the files of the other keys of the
list untouched on every node. -/
theorem rpcWriteFile_key_other {baseDir : String → String} {keys : List String}
    (hna : NoAlias baseDir keys) (net : Net) (w : World) (hbw : w.baseDir = baseDir)
    (n v f : String) (d : Bytes) (hkey : relPath v f ∈ keys)
    (a k : String) (hk : k ∈ keys) (hne : k ≠ relPath v f) :
    (rpcWriteFile net w n v f d).1.disk a (keyPath (baseDir a) k)
      = w.disk a (keyPath (baseDir a) k) := by
  apply rpcWriteFile_disk_other
  by_cases han : a = n
  · right
    rw [hbw, storagePath_eq_keyPath (hna.1 n), han]
    exact hna.keyPath_ne n hk hkey hne
  · exact Or.inl han

theorem rpcDeleteFile_key_other {baseDir : String → String} {keys : List String}
    (hna : NoAlias baseDir keys) (net : Net) (w : World) (hbw : w.baseDir = baseDir)
    (n v f : String) (hkey : relPath v f ∈ keys)
    (a k : String) (hk : k ∈ keys) (hne : k ≠ relPath v f) :
    (rpcDeleteFile net w n v f).1.disk a (keyPath (baseDir a) k)
      = w.disk a (keyPath (baseDir a) k) := by
  apply rpcDeleteFile_disk_other
  by_cases han : a = n
  · right
    rw [hbw, storagePath_eq_keyPath (hna.1 n), han]
    exact hna.keyPath_ne n hk hkey hne
  · exact Or.inl han

theorem rpcWriteFile_key_ok {baseDir : String → String} (hb : ∀ a, baseDir a ≠ "")
    (net : Net) (w : World) (hbw : w.baseDir = baseDir) (n v f : String) (d : Bytes)
    (hw : net.writeOk n (relPath v f) = true) :
    (rpcWriteFile net w n v f d).1.disk n (keyPath (baseDir n) (relPath v f)) = some d := by
  have := rpcWriteFile_disk_ok net w n v f d hw
  rw [hbw, storagePath_eq_keyPath (hb n)] at this
  exact this

/-! ## Effect of the migration loops on the stored files -/

/-- What the loop of `AddNode` leaves on the storage nodes, for indexed keys without aliases:
a counted entry is held by `addr` with the indexed bytes; the file of an entry that is not
counted, and of every other key of the list, is untouched on every node. -/
theorem addNodeLoop_disk (hash : String → Nat) (net : Net) (s : NetworkVideoContentService)
    (addr : String) (oldRing : List Nat) (oldMap : Nat → String)
    (hold : oldRing ≠ []) (hnew : s.hashRing ≠ []) (hcn : s.clients addr = true)
    (hco : ∀ h ∈ oldRing, s.clients (oldMap h) = true)
    (baseDir : String → String) (keys : List String) (hna : NoAlias baseDir keys)
    (l : List (String × Bytes)) (hsplit : ∀ kd ∈ l, splitKey kd.1 ≠ none)
    (hnd : (l.map Prod.fst).Nodup) (hkeys : ∀ kd ∈ l, kd.1 ∈ keys)
    (w : World) (m : Nat) (w1 : World) (m1 : Nat) (hbw : w.baseDir = baseDir)
    (hrun : addNodeLoop hash net s addr oldRing oldMap l w m = some (w1, m1)) :
    w1.baseDir = baseDir ∧
    (∀ a k, k ∈ keys → k ∉ l.map Prod.fst →
      w1.disk a (keyPath (baseDir a) k) = w.disk a (keyPath (baseDir a) k)) ∧
    (∀ kd ∈ l,
      (addLoopCounts hash net s addr oldRing oldMap kd = true →
        w1.disk addr (keyPath (baseDir addr) kd.1) = some kd.2) ∧
      (¬ addLoopCounts hash net s addr oldRing oldMap kd = true →
        ∀ a, w1.disk a (keyPath (baseDir a) kd.1) = w.disk a (keyPath (baseDir a) kd.1))) := by
  induction l generalizing w m with
  | nil =>
    simp only [addNodeLoop, Option.some.injEq, Prod.mk.injEq] at hrun
    obtain ⟨rfl, _⟩ := hrun
    exact ⟨hbw, fun _ _ _ _ => rfl, by simp⟩
  | cons kd rest ih =>
    obtain ⟨key, data⟩ := kd
    rw [List.map_cons, List.nodup_cons] at hnd
    obtain ⟨hkey, hndr⟩ := hnd
    have hrest : ∀ kd ∈ rest, splitKey kd.1 ≠ none :=
      fun kd hkd => hsplit kd (List.mem_cons_of_mem _ hkd)
    have hkrest : ∀ kd ∈ rest, kd.1 ∈ keys :=
      fun kd hkd => hkeys kd (List.mem_cons_of_mem _ hkd)
    have hkin : key ∈ keys := hkeys (key, data) (List.mem_cons_self _ _)
    obtain ⟨p, hp, hpo⟩ := findNodeInStaticRing_isSome hash key oldMap hold
    obtain ⟨q, _, hqn⟩ := findNode_isSome hash s key hnew
    have hk := hsplit (key, data) (List.mem_cons_self _ _)
    -- the world after the head entry, and what the head entry did to the files
    have key_step : ∃ w2 m2,
        addNodeLoop hash net s addr oldRing oldMap rest w2 m2 = some (w1, m1) ∧
        w2.baseDir = baseDir ∧
        (∀ a k, k ∈ keys → k ≠ key →
          w2.disk a (keyPath (baseDir a) k) = w.disk a (keyPath (baseDir a) k)) ∧
        (addLoopCounts hash net s addr oldRing oldMap (key, data) = true →
          w2.disk addr (keyPath (baseDir addr) key) = some data) ∧
        (¬ addLoopCounts hash net s addr oldRing oldMap (key, data) = true →
          ∀ a, w2.disk a (keyPath (baseDir a) key) = w.disk a (keyPath (baseDir a) key)) := by
      by_cases hc : s.hashToAddr q = addr ∧ oldMap p ≠ s.hashToAddr q
      · obtain ⟨hc1, hc2⟩ := hc
        rw [hc1] at hqn hc2
        cases hsk : splitKey key with
        | none => exact absurd hsk hk
        | some vf =>
          obtain ⟨v, f⟩ := vf
          have hpath := splitKey_relPath hsk
          have hkin1 : relPath v f ∈ keys := by rw [hpath]; exact hkin
          rw [addNodeLoop_move rest w m hpo hqn hc2 hsk hcn (hco p hp)] at hrun
          have hbw1 : (rpcWriteFile net w addr v f data).1.baseDir = baseDir := by
            rw [rpcWriteFile_baseDir]; exact hbw
          by_cases hw : net.writeOk addr key = true
          · rw [if_pos hw] at hrun
            refine ⟨_, _, hrun, ?_, ?_, ?_, ?_⟩
            · rw [rpcDeleteFile_baseDir]; exact hbw1
            · intro a k hkk hne
              rw [rpcDeleteFile_key_other hna net _ hbw1 _ v f hkin1 a k hkk
                  (by rw [hpath]; exact hne),
                rpcWriteFile_key_other hna net w hbw _ v f data hkin1 a k hkk
                  (by rw [hpath]; exact hne)]
            · intro _
              rw [rpcDeleteFile_disk_other _ _ _ _ _ _ _ (Or.inl (Ne.symm hc2))]
              have := rpcWriteFile_key_ok hna.1 net w hbw addr v f data
                (by rw [hpath]; exact hw)
              rw [hpath] at this
              exact this
            · intro hpred
              exact absurd (by simp [addLoopCounts, hpo, hqn, hc2, hw]) hpred
          · rw [if_neg hw] at hrun
            have hfail := rpcWriteFile_disk_fail net w addr v f data
              (by rw [hpath]; exact hw)
            refine ⟨_, _, hrun, hbw1, ?_, ?_, ?_⟩
            · intro a k _ _
              rw [hfail]
            · intro hpred
              simp only [addLoopCounts, Bool.and_eq_true] at hpred
              exact absurd hpred.2 hw
            · intro _ a
              rw [hfail]
      · rw [addNodeLoop_skip rest w m hpo hqn hc] at hrun
        refine ⟨w, m, hrun, hbw, fun _ _ _ _ => rfl, ?_, fun _ _ => rfl⟩
        intro hpred
        simp only [addLoopCounts, hpo, hqn, Option.some.injEq, ne_eq, Bool.and_eq_true,
          decide_eq_true_eq] at hpred
        exact absurd ⟨hpred.1.1, by rw [hpred.1.1]; exact hpred.1.2⟩ hc
    obtain ⟨w2, m2, hrun2, hbw2, hother, hmoved, hkept⟩ := key_step
    obtain ⟨ih0, ih1, ih2⟩ := ih hrest hndr hkrest w2 m2 hbw2 hrun2
    refine ⟨ih0, ?_, ?_⟩
    · intro a k hkk hk1
      rw [List.map_cons, List.mem_cons, not_or] at hk1
      rw [ih1 a k hkk hk1.2, hother a k hkk hk1.1]
    · intro kd hkd
      rcases List.mem_cons.1 hkd with rfl | hkd
      · refine ⟨fun hpred => ?_, fun hpred a => ?_⟩
        · rw [ih1 addr key hkin hkey]; exact hmoved hpred
        · rw [ih1 a key hkin hkey]; exact hkept hpred a
      · have hne : kd.1 ≠ key := by
          intro h
          apply hkey
          exact List.mem_map.2 ⟨kd, hkd, h⟩
        refine ⟨(ih2 kd hkd).1, fun hpred a => ?_⟩
        rw [(ih2 kd hkd).2 hpred a, hother a kd.1 (hkrest kd hkd) hne]

/-- What the loop of `RemoveNode` leaves on the storage nodes, for indexed keys without
aliases: a counted entry is held by its new owner with the indexed bytes; the file of an entry
that is not counted, and of every other key of the list, is untouched on every node. -/
theorem removeNodeLoop_disk (hash : String → Nat) (net : Net)
    (s : NetworkVideoContentService) (addr : String) (oldRing : List Nat)
    (oldMap : Nat → String) (hold : oldRing ≠ []) (hnew : s.hashRing ≠ [])
    (hring : ∀ h ∈ s.hashRing, s.hashToAddr h ≠ addr ∧ s.clients (s.hashToAddr h) = true)
    (baseDir : String → String) (keys : List String) (hna : NoAlias baseDir keys)
    (l : List (String × Bytes)) (hsplit : ∀ kd ∈ l, splitKey kd.1 ≠ none)
    (hnd : (l.map Prod.fst).Nodup) (hkeys : ∀ kd ∈ l, kd.1 ∈ keys)
    (w : World) (m : Nat) (w1 : World) (m1 : Nat) (hbw : w.baseDir = baseDir)
    (hrun : removeNodeLoop hash net s addr true oldRing oldMap l w m = some (w1, m1)) :
    w1.baseDir = baseDir ∧
    (∀ a k, k ∈ keys → k ∉ l.map Prod.fst →
      w1.disk a (keyPath (baseDir a) k) = w.disk a (keyPath (baseDir a) k)) ∧
    (∀ kd ∈ l,
      (removeLoopCounts hash net s addr oldRing oldMap kd = true →
        ∀ n, findNode hash s kd.1 = some n →
          w1.disk n (keyPath (baseDir n) kd.1) = some kd.2) ∧
      (¬ removeLoopCounts hash net s addr oldRing oldMap kd = true →
        ∀ a, w1.disk a (keyPath (baseDir a) kd.1) = w.disk a (keyPath (baseDir a) kd.1))) := by
  induction l generalizing w m with
  | nil =>
    simp only [removeNodeLoop, Option.some.injEq, Prod.mk.injEq] at hrun
    obtain ⟨rfl, _⟩ := hrun
    exact ⟨hbw, fun _ _ _ _ => rfl, by simp⟩
  | cons kd rest ih =>
    obtain ⟨key, data⟩ := kd
    rw [List.map_cons, List.nodup_cons] at hnd
    obtain ⟨hkey, hndr⟩ := hnd
    have hrest : ∀ kd ∈ rest, splitKey kd.1 ≠ none :=
      fun kd hkd => hsplit kd (List.mem_cons_of_mem _ hkd)
    have hkrest : ∀ kd ∈ rest, kd.1 ∈ keys :=
      fun kd hkd => hkeys kd (List.mem_cons_of_mem _ hkd)
    have hkin : key ∈ keys := hkeys (key, data) (List.mem_cons_self _ _)
    obtain ⟨p, _, hpo⟩ := findNodeInStaticRing_isSome hash key oldMap hold
    obtain ⟨q, hq, hqn⟩ := findNode_isSome hash s key hnew
    have hk := hsplit (key, data) (List.mem_cons_self _ _)
    have key_step : ∃ w2 m2,
        removeNodeLoop hash net s addr true oldRing oldMap rest w2 m2 = some (w1, m1) ∧
        w2.baseDir = baseDir ∧
        (∀ a k, k ∈ keys → k ≠ key →
          w2.disk a (keyPath (baseDir a) k) = w.disk a (keyPath (baseDir a) k)) ∧
        (removeLoopCounts hash net s addr oldRing oldMap (key, data) = true →
          w2.disk (s.hashToAddr q) (keyPath (baseDir (s.hashToAddr q)) key) = some data) ∧
        (¬ removeLoopCounts hash net s addr oldRing oldMap (key, data) = true →
          ∀ a, w2.disk a (keyPath (baseDir a) key) = w.disk a (keyPath (baseDir a) key)) := by
      by_cases hc : oldMap p = addr
      · rw [hc] at hpo
        cases hsk : splitKey key with
        | none => exact absurd hsk hk
        | some vf =>
          obtain ⟨v, f⟩ := vf
          have hpath := splitKey_relPath hsk
          have hkin1 : relPath v f ∈ keys := by rw [hpath]; exact hkin
          rw [removeNodeLoop_move rest w m hpo hqn (hring q hq).1 hsk (hring q hq).2] at hrun
          have hbw1 : (rpcWriteFile net w (s.hashToAddr q) v f data).1.baseDir = baseDir := by
            rw [rpcWriteFile_baseDir]; exact hbw
          by_cases hw : net.writeOk (s.hashToAddr q) key = true
          · rw [if_pos hw] at hrun
            refine ⟨_, _, hrun, ?_, ?_, ?_, ?_⟩
            · rw [rpcDeleteFile_baseDir]; exact hbw1
            · intro a k hkk hne
              rw [rpcDeleteFile_key_other hna net _ hbw1 _ v f hkin1 a k hkk
                  (by rw [hpath]; exact hne),
                rpcWriteFile_key_other hna net w hbw _ v f data hkin1 a k hkk
                  (by rw [hpath]; exact hne)]
            · intro _
              rw [rpcDeleteFile_disk_other _ _ _ _ _ _ _ (Or.inl (hring q hq).1)]
              have := rpcWriteFile_key_ok hna.1 net w hbw (s.hashToAddr q) v f data
                (by rw [hpath]; exact hw)
              rw [hpath] at this
              exact this
            · intro hpred
              exact absurd
                (by simp [removeLoopCounts, hpo, hqn, (hring q hq).1, hw]) hpred
          · rw [if_neg hw] at hrun
            have hfail := rpcWriteFile_disk_fail net w (s.hashToAddr q) v f data
              (by rw [hpath]; exact hw)
            refine ⟨_, _, hrun, hbw1, ?_, ?_, ?_⟩
            · intro a k _ _
              rw [hfail]
            · intro hpred
              simp only [removeLoopCounts, hqn, Bool.and_eq_true] at hpred
              exact absurd hpred.2.2 hw
            · intro _ a
              rw [hfail]
      · rw [removeNodeLoop_skip rest w m hpo hc] at hrun
        refine ⟨w, m, hrun, hbw, fun _ _ _ _ => rfl, ?_, fun _ _ => rfl⟩
        intro hpred
        simp only [removeLoopCounts, hpo, Option.some.injEq, Bool.and_eq_true,
          decide_eq_true_eq] at hpred
        exact absurd hpred.1 hc
    obtain ⟨w2, m2, hrun2, hbw2, hother, hmoved, hkept⟩ := key_step
    obtain ⟨ih0, ih1, ih2⟩ := ih hrest hndr hkrest w2 m2 hbw2 hrun2
    refine ⟨ih0, ?_, ?_⟩
    · intro a k hkk hk1
      rw [List.map_cons, List.mem_cons, not_or] at hk1
      rw [ih1 a k hkk hk1.2, hother a k hkk hk1.1]
    · intro kd hkd
      rcases List.mem_cons.1 hkd with rfl | hkd
      · refine ⟨fun hpred n hn => ?_, fun hpred a => ?_⟩
        · rw [hqn] at hn
          cases hn
          rw [ih1 _ key hkin hkey]; exact hmoved hpred
        · rw [ih1 a key hkin hkey]; exact hkept hpred a
      · have hne : kd.1 ≠ key := by
          intro h
          apply hkey
          exact List.mem_map.2 ⟨kd, hkd, h⟩
        refine ⟨(ih2 kd hkd).1, fun hpred a => ?_⟩
        rw [(ih2 kd hkd).2 hpred a, hother a kd.1 (hkrest kd hkd) hne]

/-! ## The key index -/

theorem filesGet_filesSet (l : List (String × Bytes)) (k : String) (d : Bytes) (k1 : String) :
    filesGet (filesSet l k d) k1 = if k1 = k then some d else filesGet l k1 := by
  induction l with
  | nil =>
    by_cases h : k1 = k
    · simp [filesSet, filesGet, h]
    · simp [filesSet, filesGet, h, Ne.symm h]
  | cons e rest ih =>
    obtain ⟨k0, d0⟩ := e
    by_cases h0 : k0 = k
    · subst h0
      by_cases h : k1 = k0
      · simp [filesSet, filesGet, h]
      · simp [filesSet, filesGet, h, Ne.symm h]
    · by_cases h : k1 = k
      · subst h
        simp [filesSet, filesGet, h0, ih]
      · by_cases h1 : k0 = k1
        · simp [filesSet, filesGet, h0, h1, h]
        · simp [filesSet, filesGet, h0, h1, ih, h]

theorem map_fst_filesSet (l : List (String × Bytes)) (k : String) (d : Bytes) :
    (filesSet l k d).map Prod.fst
      = if k ∈ l.map Prod.fst then l.map Prod.fst else l.map Prod.fst ++ [k] := by
  induction l with
  | nil => simp [filesSet]
  | cons e rest ih =>
    obtain ⟨k0, d0⟩ := e
    by_cases h0 : k0 = k
    · simp [filesSet, h0]
    · have h0' : ¬ k = k0 := fun h => h0 h.symm
      simp only [filesSet, h0, if_false, List.map_cons, ih, List.mem_cons, h0', false_or]
      by_cases hm : k ∈ rest.map Prod.fst
      · simp only [hm, if_true]
      · simp only [hm, if_false, List.cons_append]

theorem nodup_filesSet {l : List (String × Bytes)} (hnd : (l.map Prod.fst).Nodup)
    (k : String) (d : Bytes) : ((filesSet l k d).map Prod.fst).Nodup := by
  rw [map_fst_filesSet]
  by_cases hm : k ∈ l.map Prod.fst
  · simp only [hm, if_true]; exact hnd
  · simp only [hm, if_false]
    rw [List.nodup_append]
    refine ⟨hnd, by simp, ?_⟩
    intro x hx hx1
    simp only [List.mem_singleton] at hx1
    exact hm (hx1 ▸ hx)

theorem filesGet_of_mem {l : List (String × Bytes)} (hnd : (l.map Prod.fst).Nodup)
    {kd : String × Bytes} (h : kd ∈ l) : filesGet l kd.1 = some kd.2 := by
  induction l with
  | nil => simp at h
  | cons e rest ih =>
    obtain ⟨k0, d0⟩ := e
    rw [List.map_cons, List.nodup_cons] at hnd
    rcases List.mem_cons.1 h with rfl | h
    · simp [filesGet]
    · have hne : k0 ≠ kd.1 := by
        intro hk
        exact hnd.1 (List.mem_map.2 ⟨kd, h, hk.symm⟩)
      simp [filesGet, hne, ih hnd.2 h]

theorem mem_of_filesGet {l : List (String × Bytes)} {k : String} {d : Bytes}
    (h : filesGet l k = some d) : (k, d) ∈ l := by
  induction l with
  | nil => simp [filesGet] at h
  | cons e rest ih =>
    obtain ⟨k0, d0⟩ := e
    by_cases h0 : k0 = k
    · simp only [filesGet, h0, if_true, Option.some.injEq] at h
      subst h0 h
      exact List.mem_cons_self _ _
    · simp only [filesGet, h0, if_false] at h
      exact List.mem_cons_of_mem _ (ih h)

/-- An entry of the index after `files[key] = data` is the new entry or an old entry of
another key. -/
theorem mem_filesSet {l : List (String × Bytes)} (hnd : (l.map Prod.fst).Nodup)
    {k : String} {d : Bytes} {kd : String × Bytes} (h : kd ∈ filesSet l k d) :
    kd = (k, d) ∨ (kd ∈ l ∧ kd.1 ≠ k) := by
  have hget := filesGet_of_mem (nodup_filesSet hnd k d) h
  rw [filesGet_filesSet] at hget
  by_cases hk : kd.1 = k
  · rw [if_pos hk] at hget
    left
    cases kd
    simp only [Option.some.injEq] at hget
    simp only at hk
    rw [hk, hget]
  · rw [if_neg hk] at hget
    right
    exact ⟨by have := mem_of_filesGet hget; simpa using this, hk⟩


/-! ## The calls preserve the invariant -/

theorem WellFormed.ring_ne_nil {hash : String → Nat} {s : NetworkVideoContentService}
    (hwf : WellFormed hash s) (hne : s.nodes ≠ []) : s.hashRing ≠ [] := by
  intro hr
  have := hwf.ring_perm.length_eq
  rw [hr] at this
  simp only [List.length_nil, List.length_map] at this
  exact hne (List.length_eq_zero.1 this.symm)

/-- In a well-formed router with a node, every key resolves to a listed node with a client. -/
theorem WellFormed.findNode_client {hash : String → Nat} {s : NetworkVideoContentService}
    (hwf : WellFormed hash s) (hne : s.nodes ≠ []) (key : String) :
    ∃ a, findNode hash s key = some a ∧ a ∈ s.nodes ∧ s.clients a = true := by
  obtain ⟨p, hp, hfind⟩ := findNode_isSome hash s key (hwf.ring_ne_nil hne)
  exact ⟨_, hfind, hwf.consistent.ring_nodes p hp, hwf.consistent.ring_clients p hp⟩

/-- `Write` with all RPCs succeeding: no panic, success, the key is indexed with the written
bytes, and the invariant is kept. -/
theorem Write_inv (hash : String → Nat) (keys : List String)
    (s : NetworkVideoContentService) (w : World)
    (v f : String) (data : Bytes) (hinv : Inv hash keys (s, w))
    (hk : v ++ "/" ++ f ∈ keys) :
    ∃ w1, Write hash Net.allOk s w v f data
        = some ({ s with files := filesSet s.files (v ++ "/" ++ f) data }, w1, true) ∧
      Inv hash keys ({ s with files := filesSet s.files (v ++ "/" ++ f) data }, w1) := by
  obtain ⟨hwf, hpl, hne, hin, hna⟩ := hinv
  simp only at hwf hpl hne hin hna
  obtain ⟨a, hfind, _, hcl⟩ := hwf.findNode_client hne (v ++ "/" ++ f)
  have hw : Net.allOk.writeOk a (relPath v f) = true := rfl
  refine ⟨(rpcWriteFile Net.allOk w a v f data).1, ?_, ?_, ?_, hne, ?_, ?_⟩
  · unfold Write
    rw [hfind]
    simp only [hcl, if_true]
    simp [rpcWriteFile, Net.allOk]
  · exact
      { sorted := hwf.sorted
        ring_perm := hwf.ring_perm
        hash_nodup := hwf.hash_nodup
        map_ok := hwf.map_ok
        clients_ok := hwf.clients_ok
        keys_split := by
          intro kd hkd
          rcases mem_filesSet hwf.keys_nodup hkd with rfl | h
          · exact splitKey_key_ne_none v f
          · exact hwf.keys_split kd h.1
        keys_nodup := nodup_filesSet hwf.keys_nodup _ _
        nodes_of_files := fun _ => hne }
  · intro kd hkd
    rcases mem_filesSet hwf.keys_nodup hkd with rfl | h
    · refine ⟨a, hfind, ?_⟩
      rw [rpcWriteFile_baseDir]
      exact rpcWriteFile_key_ok hna.1 Net.allOk w rfl a v f data hw
    · obtain ⟨a1, h1, h2⟩ := hpl kd h.1
      refine ⟨a1, h1, ?_⟩
      rw [rpcWriteFile_baseDir,
        rpcWriteFile_key_other hna Net.allOk w rfl a v f data hk a1 kd.1 (hin kd h.1) h.2]
      exact h2
  · intro kd hkd
    rcases mem_filesSet hwf.keys_nodup hkd with rfl | h
    · exact hk
    · exact hin kd h.1
  · show NoAlias (rpcWriteFile Net.allOk w a v f data).1.baseDir keys
    rw [rpcWriteFile_baseDir]
    exact hna


theorem WellFormed_registerNode {hash : String → Nat} {s : NetworkVideoContentService}
    (hwf : WellFormed hash s) {d : String} (hdist : hash d ∉ s.nodes.map hash) :
    WellFormed hash (registerNode hash s d) where
  sorted := sorted_sortSlice _
  ring_perm := by
    show (sortSlice (s.hashRing ++ [hash d])).Perm ((s.nodes ++ [d]).map hash)
    rw [List.map_append]
    exact (perm_sortSlice _).trans (List.Perm.append_right _ hwf.ring_perm)
  hash_nodup := by
    show ((s.nodes ++ [d]).map hash).Nodup
    rw [List.map_append, List.nodup_append]
    refine ⟨hwf.hash_nodup, by simp, ?_⟩
    intro x hx hx1
    simp only [List.map_cons, List.map_nil, List.mem_singleton] at hx1
    exact hdist (hx1 ▸ hx)
  map_ok := by
    intro n hn
    show mapSet s.hashToAddr (hash d) d (hash n) = n
    have hn' : n ∈ s.nodes ++ [d] := hn
    rcases List.mem_append.1 hn' with h | h
    · have hne : hash n ≠ hash d := by
        intro heq
        exact hdist (heq ▸ List.mem_map_of_mem _ h)
      simp [mapSet, hne, hwf.map_ok n h]
    · simp only [List.mem_singleton] at h
      simp [mapSet, h]
  clients_ok := by
    intro n hn
    show mapSet s.clients d true n = true
    have hn' : n ∈ s.nodes ++ [d] := hn
    by_cases hnd : n = d
    · simp [mapSet, hnd]
    · rcases List.mem_append.1 hn' with h | h
      · simp [mapSet, hnd, hwf.clients_ok n h]
      · simp only [List.mem_singleton] at h
        exact absurd h hnd
  keys_split := hwf.keys_split
  keys_nodup := hwf.keys_nodup
  nodes_of_files := by
    intro _ h
    have : s.nodes ++ [d] = [] := h
    simp at this

/-- `AddNode` of a new, reachable address with a new hash point, all RPCs succeeding: no
panic, no error, and the invariant is kept. -/
theorem AddNode_inv (hash : String → Nat) (dial : String → Bool) (keys : List String)
    (s : NetworkVideoContentService) (w : World) (d : String) (hinv : Inv hash keys (s, w))
    (hnew : d ∉ s.nodes) (hdial : dial d = true) (hdist : hash d ∉ s.nodes.map hash) :
    ∃ w1 n, AddNode hash dial Net.allOk s w d
        = some { svc := registerNode hash s d, world := w1, resp := Except.ok n } ∧
      Inv hash keys (registerNode hash s d, w1) := by
  obtain ⟨hwf, hpl, hne, hin, hna⟩ := hinv
  simp only at hwf hpl hne hin hna
  have hcons := hwf.consistent
  have hwf1 := WellFormed_registerNode hwf hdist
  have hne1 : (registerNode hash s d).nodes ≠ [] := by
    intro h
    have : s.nodes ++ [d] = [] := h
    simp at this
  have hold : sortSlice s.hashRing ≠ [] := by
    rw [sortSlice_eq_self hcons.sorted]; exact hwf.ring_ne_nil hne
  have hcn : (registerNode hash s d).clients d = true := by
    simp [registerNode, sortRing, mapSet]
  have hco : ∀ h ∈ sortSlice s.hashRing,
      (registerNode hash s d).clients (snapshotMap s h) = true := by
    intro h hh
    have hh1 := mem_sortSlice.1 hh
    have := hcons.ring_clients h hh1
    simp [registerNode, sortRing, mapSet, snapshotMap, hh1, this]
  obtain ⟨w1, hw1⟩ := addNodeLoop_count hash Net.allOk (registerNode hash s d) d
    (sortSlice s.hashRing) (snapshotMap s) hold (registerNode_ring_ne_nil hash s d)
    hcn hco s.files hcons.keys_split w 0
  obtain ⟨hb1, _, hdisk⟩ := addNodeLoop_disk hash Net.allOk (registerNode hash s d) d
    (sortSlice s.hashRing) (snapshotMap s) hold (registerNode_ring_ne_nil hash s d)
    hcn hco w.baseDir keys hna s.files hcons.keys_split hwf.keys_nodup hin w 0 w1 _ rfl hw1
  have hres : ∃ n, AddNode hash dial Net.allOk s w d
      = some { svc := registerNode hash s d, world := w1, resp := Except.ok n } := by
    unfold AddNode
    rw [if_neg hnew, if_pos hdial, hw1]
    exact ⟨_, rfl⟩
  obtain ⟨n, hn⟩ := hres
  refine ⟨w1, n, hn, ?_⟩
  · refine ⟨hwf1, ?_, hne1, hin, by rw [show w1.baseDir = w.baseDir from hb1]; exact hna⟩
    intro kd hkd
    have hkd0 : kd ∈ s.files := hkd
    obtain ⟨a, ha, hda⟩ := hpl kd hkd0
    obtain ⟨b, hb, _, _⟩ := hwf1.findNode_client hne1 kd.1
    show ∃ a, findNode hash (registerNode hash s d) kd.1 = some a ∧
      w1.disk a (keyPath (w1.baseDir a) kd.1) = some kd.2
    rw [hb1]
    by_cases hcount : addLoopCounts hash Net.allOk (registerNode hash s d) d
        (sortSlice s.hashRing) (snapshotMap s) kd = true
    · have hbd : findNode hash (registerNode hash s d) kd.1 = some d := by
        simp only [addLoopCounts, Bool.and_eq_true, decide_eq_true_eq] at hcount
        exact hcount.1.1
      exact ⟨d, hbd, (hdisk kd hkd0).1 hcount⟩
    · have hsame := (hdisk kd hkd0).2 hcount
      by_cases hbd : b = d
      · -- the key resolves to the new node and was not counted: it was already there
        have hold1 : findNode hash s kd.1 = some d := by
          by_contra hno
          apply hcount
          simp [addLoopCounts, findNodeInStaticRing_old hash s kd.1 hcons.sorted, hb, hbd,
            hno, Net.allOk]
        rw [ha] at hold1
        cases hold1
        exact ⟨b, hb, by rw [hsame, hbd]; exact hda⟩
      · have := findNode_registerNode_of_ne hash s hcons.sorted d kd.1 b hb hbd
        rw [ha] at this
        cases this
        exact ⟨a, hb, by rw [hsame]; exact hda⟩


/-- The loop of `RemoveNode` does nothing when no entry was owned by the address. -/
theorem removeNodeLoop_noop (hash : String → Nat) (net : Net)
    (s : NetworkVideoContentService) (addr : String) (oc : Bool) (oldRing : List Nat)
    (oldMap : Nat → String) (l : List (String × Bytes))
    (hno : ∀ kd ∈ l, ∃ o, findNodeInStaticRing hash kd.1 oldRing oldMap = some o ∧ o ≠ addr)
    (w : World) (m : Nat) :
    removeNodeLoop hash net s addr oc oldRing oldMap l w m = some (w, m) := by
  induction l with
  | nil => simp [removeNodeLoop]
  | cons kd rest ih =>
    obtain ⟨key, data⟩ := kd
    obtain ⟨o, ho, hne⟩ := hno (key, data) (List.mem_cons_self _ _)
    rw [removeNodeLoop_skip rest w m ho hne]
    exact ih (fun kd hkd => hno kd (List.mem_cons_of_mem _ hkd))

theorem WellFormed_unregisterNode {hash : String → Nat} {s : NetworkVideoContentService}
    (hwf : WellFormed hash s) {b n : String} (hn : n ∈ s.nodes) (hne : n ≠ b) :
    WellFormed hash (unregisterNode s b) where
  sorted := sorted_sortSlice _
  ring_perm := by
    show (sortSlice (s.hashRing.filter (fun h => s.hashToAddr h ≠ b))).Perm
      ((s.nodes.filter (fun n => n ≠ b)).map hash)
    refine (perm_sortSlice _).trans ?_
    have h1 := List.Perm.filter (fun h => decide (s.hashToAddr h ≠ b)) hwf.ring_perm
    refine h1.trans ?_
    rw [List.filter_map]
    apply List.Perm.of_eq
    congr 1
    apply List.filter_congr
    intro x hx
    simp [hwf.map_ok x hx]
  hash_nodup := by
    show ((s.nodes.filter (fun n => n ≠ b)).map hash).Nodup
    exact List.Nodup.sublist (List.Sublist.map _ (List.filter_sublist _)) hwf.hash_nodup
  map_ok := by
    intro x hx
    have hx1 : x ∈ s.nodes.filter (fun n => n ≠ b) := hx
    exact hwf.map_ok x (List.mem_filter.1 hx1).1
  clients_ok := by
    intro x hx
    have hx1 : x ∈ s.nodes.filter (fun n => n ≠ b) := hx
    obtain ⟨h1, h2⟩ := List.mem_filter.1 hx1
    have h3 : x ≠ b := by simpa using h2
    show mapSet s.clients b false x = true
    simp [mapSet, h3, hwf.clients_ok x h1]
  keys_split := hwf.keys_split
  keys_nodup := hwf.keys_nodup
  nodes_of_files := by
    intro _ h
    have hm : n ∈ s.nodes.filter (fun n => n ≠ b) := by
      rw [List.mem_filter]; exact ⟨hn, by simpa using hne⟩
    have h0 : s.nodes.filter (fun n => n ≠ b) = [] := h
    rw [h0] at hm
    simp at hm

/-- `RemoveNode` that leaves at least one listed node, all RPCs succeeding: no panic, no
error, and the invariant is kept. -/
theorem RemoveNode_inv (hash : String → Nat) (keys : List String)
    (s : NetworkVideoContentService) (w : World)
    (b n0 : String) (hinv : Inv hash keys (s, w)) (hn0 : n0 ∈ s.nodes) (hne0 : n0 ≠ b) :
    ∃ w1 n, RemoveNode hash Net.allOk s w b
        = some { svc := unregisterNode s b, world := w1, resp := Except.ok n } ∧
      Inv hash keys (unregisterNode s b, w1) := by
  obtain ⟨hwf, hpl, hne, hin, hna⟩ := hinv
  simp only at hwf hpl hne hin hna
  have hcons := hwf.consistent
  have hwf1 := WellFormed_unregisterNode hwf hn0 hne0
  have hne1 : (unregisterNode s b).nodes ≠ [] := by
    intro h
    have hm : n0 ∈ s.nodes.filter (fun n => n ≠ b) := by
      rw [List.mem_filter]; exact ⟨hn0, by simpa using hne0⟩
    have h0 : s.nodes.filter (fun n => n ≠ b) = [] := h
    rw [h0] at hm
    simp at hm
  have hnew := unregisterNode_ring_ne_nil hwf hn0 hne0
  have hold : sortSlice s.hashRing ≠ [] := by
    rw [sortSlice_eq_self hcons.sorted]; exact hwf.ring_ne_nil hne
  -- the loop result and its effect on the files of the indexed keys
  have hloop : ∃ w1 m1, removeNodeLoop hash Net.allOk (unregisterNode s b) b (s.clients b)
        (sortSlice s.hashRing) (snapshotMap s) s.files w 0 = some (w1, m1) ∧
      w1.baseDir = w.baseDir ∧
      ∀ kd ∈ s.files,
        (findNode hash s kd.1 = some b →
          ∀ n, findNode hash (unregisterNode s b) kd.1 = some n →
            w1.disk n (keyPath (w.baseDir n) kd.1) = some kd.2) ∧
        (findNode hash s kd.1 ≠ some b →
          ∀ a, w1.disk a (keyPath (w.baseDir a) kd.1)
            = w.disk a (keyPath (w.baseDir a) kd.1)) := by
    by_cases hb : b ∈ s.nodes
    · obtain ⟨w1, hw1⟩ := removeNodeLoop_count hash Net.allOk (unregisterNode s b) b
        (sortSlice s.hashRing) (snapshotMap s) hold hnew (unregisterNode_ring_props hcons b)
        s.files hcons.keys_split w 0
      obtain ⟨hb1, _, hdisk⟩ := removeNodeLoop_disk hash Net.allOk (unregisterNode s b) b
        (sortSlice s.hashRing) (snapshotMap s) hold hnew (unregisterNode_ring_props hcons b)
        w.baseDir keys hna s.files hcons.keys_split hwf.keys_nodup hin w 0 w1 _ rfl hw1
      rw [hwf.clients_ok b hb]
      refine ⟨w1, _, hw1, hb1, ?_⟩
      intro kd hkd
      obtain ⟨q, hq, hqn⟩ := findNode_isSome hash (unregisterNode s b) kd.1 hnew
      have hqb := (unregisterNode_ring_props hcons b q hq).1
      refine ⟨fun hown => ?_, fun hown => ?_⟩
      · apply (hdisk kd hkd).1
        simp [removeLoopCounts, findNodeInStaticRing_old hash s kd.1 hcons.sorted, hown, hqn,
          hqb, Net.allOk]
      · apply (hdisk kd hkd).2
        simp [removeLoopCounts, findNodeInStaticRing_old hash s kd.1 hcons.sorted, hown]
    · have hno : ∀ kd ∈ s.files, ∃ o,
          findNodeInStaticRing hash kd.1 (sortSlice s.hashRing) (snapshotMap s) = some o ∧
          o ≠ b := by
        intro kd _
        obtain ⟨a, ha, hmem, _⟩ := hwf.findNode_client hne kd.1
        refine ⟨a, by rw [findNodeInStaticRing_old hash s kd.1 hcons.sorted]; exact ha, ?_⟩
        intro hab
        exact hb (hab ▸ hmem)
      refine ⟨w, 0, removeNodeLoop_noop hash Net.allOk _ b _ _ _ s.files hno w 0, rfl, ?_⟩
      intro kd _
      refine ⟨fun hown => ?_, fun _ _ => rfl⟩
      obtain ⟨a, ha, hmem, _⟩ := hwf.findNode_client hne kd.1
      rw [ha] at hown
      cases hown
      exact absurd hmem hb
  obtain ⟨w1, m1, hrun, hb1, hdisk⟩ := hloop
  have hres : ∃ n, RemoveNode hash Net.allOk s w b
      = some { svc := unregisterNode s b, world := w1, resp := Except.ok n } := by
    unfold RemoveNode
    rw [hrun]
    exact ⟨_, rfl⟩
  obtain ⟨n, hn⟩ := hres
  refine ⟨w1, n, hn, ?_⟩
  refine ⟨hwf1, ?_, hne1, hin, by rw [show w1.baseDir = w.baseDir from hb1]; exact hna⟩
  intro kd hkd
  have hkd0 : kd ∈ s.files := hkd
  obtain ⟨a, ha, hda⟩ := hpl kd hkd0
  show ∃ a, findNode hash (unregisterNode s b) kd.1 = some a ∧
    w1.disk a (keyPath (w1.baseDir a) kd.1) = some kd.2
  rw [hb1]
  by_cases hab : a = b
  · obtain ⟨c, hc, _, _⟩ := hwf1.findNode_client hne1 kd.1
    exact ⟨c, hc, (hdisk kd hkd0).1 (by rw [ha, hab]) c hc⟩
  · refine ⟨a, findNode_unregisterNode_of_ne hash s hcons.sorted b kd.1 a ha hab, ?_⟩
    have : findNode hash s kd.1 ≠ some b := by
      rw [ha]
      intro h
      exact hab (Option.some.inj h)
    rw [(hdisk kd hkd0).2 this a]
    exact hda


/-! ## The constructor -/

theorem splitComma_ne_nil (l : List Char) : splitComma l ≠ [] := by
  induction l with
  | nil => simp [splitComma]
  | cons c cs ih =>
    by_cases hc : c = ','
    · simp [splitComma, hc]
    · simp only [splitComma, hc, if_false]
      cases h : splitComma cs with
      | nil => exact absurd h ih
      | cons p ps => simp

theorem splitNodes_ne_nil (option : String) : splitNodes option ≠ [] := by
  unfold splitNodes
  intro h
  exact splitComma_ne_nil _ (List.map_eq_nil_iff.1 h)

/-- What the registration loop of the constructor builds when every dial succeeds. -/
theorem registerAll_ok (hash : String → Nat) (dial : String → Bool) (l : List String)
    (s s1 : NetworkVideoContentService) (h : registerAll hash dial l s = Except.ok s1) :
    s1.nodes = s.nodes ∧ s1.hashRing = s.hashRing ++ l.map hash ∧ s1.files = s.files ∧
    (∀ x, s1.clients x = (decide (x ∈ l) || s.clients x)) ∧
    (∀ x, x ∉ l.map hash → s1.hashToAddr x = s.hashToAddr x) ∧
    ((l.map hash).Nodup → ∀ n ∈ l, s1.hashToAddr (hash n) = n) := by
  induction l generalizing s with
  | nil =>
    simp only [registerAll, Except.ok.injEq] at h
    subst h
    simp
  | cons a rest ih =>
    rw [registerAll] at h
    by_cases hd : dial a = true
    · simp only [hd, if_true] at h
      obtain ⟨h1, h2, h3, h4, h5, h6⟩ := ih _ h
      refine ⟨h1, ?_, h3, ?_, ?_, ?_⟩
      · rw [h2]; simp
      · intro x
        rw [h4 x]
        by_cases hx : x = a
        · simp [mapSet, hx]
        · simp [mapSet, hx]
      · intro x hx
        rw [List.map_cons, List.mem_cons, not_or] at hx
        rw [h5 x hx.2]
        simp [mapSet, hx.1]
      · intro hnd n hn
        rw [List.map_cons, List.nodup_cons] at hnd
        rcases List.mem_cons.1 hn with rfl | hn
        · rw [h5 _ hnd.1]
          simp [mapSet]
        · exact h6 hnd.2 n hn
    · simp only [hd] at h
      cases h

theorem registerAll_isOk (hash : String → Nat) (dial : String → Bool) (l : List String)
    (s : NetworkVideoContentService) (hdial : ∀ a ∈ l, dial a = true) :
    ∃ s1, registerAll hash dial l s = Except.ok s1 := by
  induction l generalizing s with
  | nil => exact ⟨s, rfl⟩
  | cons a rest ih =>
    rw [registerAll]
    simp only [hdial a (List.mem_cons_self _ _), if_true]
    exact ih _ (fun x hx => hdial x (List.mem_cons_of_mem _ hx))

/-- The router the constructor returns: the listed nodes are the comma-separated parts of the
option string, the ring is their sorted hash points, every node has a client, and no key is
indexed. With distinct hash points it is well formed. -/
theorem NewNetworkVideoContentService_ok (hash : String → Nat) (dial : String → Bool)
    (option : String) (s0 : NetworkVideoContentService)
    (h : NewNetworkVideoContentService hash dial option = Except.ok s0) :
    s0.nodes = splitNodes option ∧ s0.files = [] ∧
    s0.hashRing = sortSlice ((splitNodes option).map hash) ∧
    (∀ x, s0.clients x = decide (x ∈ splitNodes option)) ∧
    (((splitNodes option).map hash).Nodup → WellFormed hash s0) := by
  unfold NewNetworkVideoContentService at h
  have hlen : (splitNodes option).length ≠ 0 := by
    intro h0
    exact splitNodes_ne_nil option (List.length_eq_zero.1 h0)
  simp only [hlen, if_false] at h
  cases hreg : registerAll hash dial (splitNodes option)
      { nodes := splitNodes option, hashRing := [], hashToAddr := fun _ => "",
        clients := fun _ => false, files := [] } with
  | error e => rw [hreg] at h; cases h
  | ok s1 =>
    rw [hreg] at h
    simp only [Except.ok.injEq] at h
    subst h
    obtain ⟨h1, h2, h3, h4, _, h6⟩ := registerAll_ok hash dial _ _ _ hreg
    simp only [List.nil_append, Bool.or_false] at h1 h2 h3 h4
    have hring : (sortRing s1).hashRing = sortSlice ((splitNodes option).map hash) := by
      show sortSlice s1.hashRing = _
      rw [h2]
    refine ⟨h1, h3, hring, h4, ?_⟩
    intro hnd
    exact
      { sorted := sorted_sortSlice _
        ring_perm := by
          rw [hring]
          show (sortSlice _).Perm (s1.nodes.map hash)
          rw [h1]
          exact perm_sortSlice _
        hash_nodup := by
          show (s1.nodes.map hash).Nodup
          rw [h1]; exact hnd
        map_ok := by
          intro n hn
          have hn1 : n ∈ s1.nodes := hn
          rw [h1] at hn1
          exact h6 hnd n hn1
        clients_ok := by
          intro n hn
          have hn1 : n ∈ s1.nodes := hn
          rw [h1] at hn1
          show s1.clients n = true
          rw [h4 n]
          simpa using hn1
        keys_split := by
          intro kd hkd
          have hkd1 : kd ∈ s1.files := hkd
          rw [h3] at hkd1
          simp at hkd1
        keys_nodup := by
          show (s1.files.map Prod.fst).Nodup
          rw [h3]; simp
        nodes_of_files := by
          intro hf
          have hf1 : s1.files ≠ [] := hf
          exact absurd h3 hf1 }


/-! ## Sequences of calls -/

/-- One admissible call from a state satisfying the invariant: no panic, the invariant is
kept, and the key index changes only by the key a `Write` writes. -/
theorem step_inv (hash : String → Nat) (dial : String → Bool) (keys : List String)
    (sw : NetworkVideoContentService × World) (op : Op) (hinv : Inv hash keys sw)
    (hok : opOk hash dial sw.1 op = true) (hks : ∀ k ∈ writtenKeys [op], k ∈ keys) :
    ∃ sw1, step hash dial Net.allOk sw op = some sw1 ∧ Inv hash keys sw1 ∧
      ∀ key, filesGet sw1.1.files key
        = match writeOf op key with
          | some d => some d
          | none => filesGet sw.1.files key := by
  obtain ⟨s, w⟩ := sw
  cases op with
  | write v f data =>
    obtain ⟨w1, hw, hinv1⟩ := Write_inv hash keys s w v f data hinv
      (hks _ (by simp [writtenKeys]))
    refine ⟨_, by simp only [step, hw], hinv1, ?_⟩
    intro key
    simp only [filesGet_filesSet, writeOf]
    by_cases hk : key = v ++ "/" ++ f
    · simp [hk]
    · simp [hk]
  | addNode a =>
    simp only [opOk, Bool.and_eq_true, Bool.or_eq_true, decide_eq_true_eq] at hok
    obtain ⟨hdial, hcase⟩ := hok
    by_cases hmem : a ∈ s.nodes
    · refine ⟨(s, w), ?_, hinv, fun key => by simp [writeOf]⟩
      simp only [step, AddNode, hmem, if_true]
    · have hdist : hash a ∉ s.nodes.map hash := by
        rcases hcase with h | h
        · exact absurd h hmem
        · exact h
      obtain ⟨w1, n, hrun, hinv1⟩ := AddNode_inv hash dial keys s w a hinv hmem hdial hdist
      refine ⟨_, by simp only [step, hrun], hinv1, fun key => ?_⟩
      simp only [writeOf]
      rfl
  | removeNode b =>
    simp only [opOk, List.any_eq_true, decide_eq_true_eq] at hok
    obtain ⟨n0, hn0, hne0⟩ := hok
    obtain ⟨w1, n, hrun, hinv1⟩ := RemoveNode_inv hash keys s w b n0 hinv hn0 hne0
    refine ⟨_, by simp only [step, hrun], hinv1, fun key => ?_⟩
    simp only [writeOf]
    rfl

/-- An admissible sequence of calls from a state satisfying the invariant runs without panic,
ends in a state satisfying the invariant, and the key index holds for each key the bytes of
its most recent `Write`. -/
theorem runOps_inv (hash : String → Nat) (dial : String → Bool) (keys : List String)
    (ops : List Op) (sw : NetworkVideoContentService × World) (hinv : Inv hash keys sw)
    (hadm : admissible hash dial Net.allOk sw ops = true)
    (hks : ∀ k ∈ writtenKeys ops, k ∈ keys) :
    ∃ sw1, runOps hash dial Net.allOk sw ops = some sw1 ∧ Inv hash keys sw1 ∧
      ∀ key, filesGet sw1.1.files key
        = match lastWrite ops key with
          | some d => some d
          | none => filesGet sw.1.files key := by
  induction ops generalizing sw with
  | nil => exact ⟨sw, rfl, hinv, fun key => by simp [lastWrite]⟩
  | cons op rest ih =>
    rw [admissible, Bool.and_eq_true] at hadm
    have hks1 : ∀ k ∈ writtenKeys [op], k ∈ keys := by
      intro k hk
      apply hks
      cases op <;> simp_all [writtenKeys]
    have hks2 : ∀ k ∈ writtenKeys rest, k ∈ keys := by
      intro k hk
      apply hks
      cases op <;> simp_all [writtenKeys]
    obtain ⟨sw1, hstep, hinv1, hfiles1⟩ := step_inv hash dial keys sw op hinv hadm.1 hks1
    have hadm1 : admissible hash dial Net.allOk sw1 rest = true := by
      have := hadm.2
      rw [hstep] at this
      exact this
    obtain ⟨sw2, hrun, hinv2, hfiles2⟩ := ih sw1 hinv1 hadm1 hks2
    refine ⟨sw2, by simp only [runOps, hstep, hrun], hinv2, fun key => ?_⟩
    rw [hfiles2 key, lastWrite]
    cases lastWrite rest key with
    | some d => rfl
    | none => exact hfiles1 key


/-- C3, as amended. Data placement. Start from the router the constructor returns for an
option string whose nodes have distinct hash points, with storage nodes that each have a
non-empty base directory and any initial content, and make any sequence of `Write`, `AddNode`
and `RemoveNode` calls in which every RPC succeeds, every added address can be dialled and has
a hash point no listed node has, every removal leaves at least one listed node, and no two
distinct written keys name the same file once `filepath.Join` has cleaned the path. Then no
call panics, and for every key written, the node `findNode` resolves it to under the final ring
holds at `filepath.Join(BaseDir, videoId, filename)` the bytes of the most recent `Write` of the
key, and `Read(videoId, filename)` returns exactly those bytes. -/
theorem placement_invariant (hash : String → Nat) (dial : String → Bool) (option : String)
    (s0 : NetworkVideoContentService) (w0 : World) (ops : List Op)
    (hctor : NewNetworkVideoContentService hash dial option = Except.ok s0)
    (hdist : ((splitNodes option).map hash).Nodup)
    (hadm : admissible hash dial Net.allOk (s0, w0) ops = true)
    (hna : NoAlias w0.baseDir (writtenKeys ops)) :
    ∃ s w, runOps hash dial Net.allOk (s0, w0) ops = some (s, w) ∧ s.nodes ≠ [] ∧
      ∀ v f data, lastWrite ops (v ++ "/" ++ f) = some data →
        (∃ a, findNode hash s (v ++ "/" ++ f) = some a ∧ a ∈ s.nodes ∧
          w.disk a (storagePath (w.baseDir a) v f) = some data) ∧
        ∃ w1, Read hash Net.allOk s w v f = some (w1, some data) := by
  obtain ⟨hnodes, hfiles, _, _, hwf⟩ := NewNetworkVideoContentService_ok hash dial option s0 hctor
  have hinv0 : Inv hash (writtenKeys ops) (s0, w0) := by
    refine ⟨hwf hdist, ?_, ?_, ?_, hna⟩
    · intro kd hkd
      have hkd1 : kd ∈ s0.files := hkd
      rw [hfiles] at hkd1
      simp at hkd1
    · show s0.nodes ≠ []
      rw [hnodes]; exact splitNodes_ne_nil option
    · intro kd hkd
      have hkd1 : kd ∈ s0.files := hkd
      rw [hfiles] at hkd1
      simp at hkd1
  obtain ⟨⟨s, w⟩, hrun, ⟨hwf1, hpl1, hne1, _, hna1⟩, hidx⟩ :=
    runOps_inv hash dial (writtenKeys ops) ops (s0, w0) hinv0 hadm (fun _ h => h)
  simp only at hwf1 hpl1 hne1 hidx hna1
  refine ⟨s, w, hrun, hne1, ?_⟩
  intro v f data hlast
  have hget : filesGet s.files (v ++ "/" ++ f) = some data := by
    rw [hidx, hlast]
  obtain ⟨a, ha, hda⟩ := hpl1 _ (mem_of_filesGet hget)
  obtain ⟨a1, ha1, hmem, hcl⟩ := hwf1.findNode_client hne1 (v ++ "/" ++ f)
  simp only at ha hda
  rw [ha] at ha1
  cases ha1
  have hda1 : w.disk a (storagePath (w.baseDir a) v f) = some data := by
    rw [storagePath_eq_keyPath (hna1.1 a)]
    exact hda
  refine ⟨⟨a, ha, hmem, hda1⟩, ?_⟩
  refine ⟨(rpcReadFile Net.allOk w a v f).1, ?_⟩
  unfold Read
  rw [ha]
  simp only [hcl, if_true]
  have : (rpcReadFile Net.allOk w a v f).2 = some data := by
    simp only [rpcReadFile, Net.allOk, if_true]
    exact hda1
  rw [← this]

theorem exampleOps_noAlias : NoAlias emptyWorld.baseDir (writtenKeys exampleOps) := by
  refine ⟨fun a => ?_, fun a => ?_⟩
  · show "/data" ≠ ""
    decide
  · show ∀ k1 ∈ writtenKeys exampleOps, ∀ k2 ∈ writtenKeys exampleOps,
      keyPath "/data" k1 = keyPath "/data" k2 → k1 = k2
    decide

theorem placement_invariant_witness :
    lastWrite exampleOps "v1/seg-002.m4s" = some [5] ∧
    ∃ s w, runOps exampleHash exampleDial Net.allOk (exampleStart, emptyWorld) exampleOps
        = some (s, w) ∧ s.nodes ≠ [] ∧
      ∀ v f data, lastWrite exampleOps (v ++ "/" ++ f) = some data →
        (∃ a, findNode exampleHash s (v ++ "/" ++ f) = some a ∧ a ∈ s.nodes ∧
          w.disk a (storagePath (w.baseDir a) v f) = some data) ∧
        ∃ w1, Read exampleHash Net.allOk s w v f = some (w1, some data) :=
  ⟨by decide,
    placement_invariant exampleHash exampleDial "n2:9002,n1:9001,n3:9003" exampleStart
      emptyWorld exampleOps (by rfl) (by decide) (by decide) exampleOps_noAlias⟩

/-! ## Incremental and fresh construction -/

theorem splitComma_commaFree {l : List Char} (h : ',' ∉ l) : splitComma l = [l] := by
  induction l with
  | nil => rfl
  | cons c cs ih =>
    rw [List.mem_cons, not_or] at h
    have hc : ¬ c = ',' := fun e => h.1 e.symm
    simp [splitComma, hc, ih h.2]

theorem splitComma_append_comma {l : List Char} (h : ',' ∉ l) (r : List Char) :
    splitComma (l ++ ',' :: r) = l :: splitComma r := by
  induction l with
  | nil => simp [splitComma]
  | cons c cs ih =>
    rw [List.mem_cons, not_or] at h
    have hc : ¬ c = ',' := fun e => h.1 e.symm
    simp [splitComma, hc, ih h.2]

/-- Splitting the joined option string gives back a non-empty list of comma-free addresses. -/
theorem splitNodes_joinComma (l : List String) (hne : l ≠ [])
    (hfree : ∀ x ∈ l, ',' ∉ x.data) : splitNodes (joinComma l) = l := by
  induction l with
  | nil => exact absurd rfl hne
  | cons a rest ih =>
    cases rest with
    | nil =>
      simp only [joinComma, splitNodes]
      rw [splitComma_commaFree (hfree a (List.mem_cons_self _ _))]
      rfl
    | cons b rest1 =>
      have hrec := ih (by simp) (fun x hx => hfree x (List.mem_cons_of_mem _ hx))
      simp only [joinComma, splitNodes] at hrec ⊢
      have hdata : (a ++ "," ++ joinComma (b :: rest1)).data
          = a.data ++ ',' :: (joinComma (b :: rest1)).data := by
        simp [String.data_append]
      rw [hdata, splitComma_append_comma (hfree a (List.mem_cons_self _ _)), List.map_cons,
        hrec]

/-- Two well-formed routers that list the same nodes, in any order, resolve every key to the
same address. -/
theorem findNode_eq_of_perm {hash : String → Nat} {s1 s2 : NetworkVideoContentService}
    (h1 : WellFormed hash s1) (h2 : WellFormed hash s2) (hperm : s1.nodes.Perm s2.nodes)
    (key : String) : findNode hash s1 key = findNode hash s2 key := by
  have hring : s1.hashRing = s2.hashRing := by
    apply List.eq_of_perm_of_sorted _ h1.sorted h2.sorted
    exact h1.ring_perm.trans ((hperm.map hash).trans h2.ring_perm.symm)
  rw [findNode_eq_map, findNode_eq_map, hring]
  cases hp : ownerPoint (hash key) s2.hashRing with
  | none => rfl
  | some p =>
    obtain ⟨n, hn, rfl⟩ := h2.ring_mem (ownerPoint_mem hp)
    simp only [Option.map_some', Option.some.injEq]
    rw [h2.map_ok n hn, h1.map_ok n (hperm.mem_iff.2 hn)]

/-- `AddNode` on a router with no indexed key sends no RPC and installs the new ring. -/
theorem AddNode_no_files (hash : String → Nat) (dial : String → Bool) (net : Net)
    (s : NetworkVideoContentService) (w : World) (d : String) (hfiles : s.files = [])
    (hnew : d ∉ s.nodes) (hdial : dial d = true) :
    AddNode hash dial net s w d
      = some { svc := registerNode hash s d, world := w, resp := Except.ok (toInt32 0) } := by
  unfold AddNode
  rw [if_neg hnew, if_pos hdial, hfiles]
  rfl

/-- Growing a well-formed router with no indexed key by a list of new addresses. -/
theorem runOps_addNodes (hash : String → Nat) (dial : String → Bool) (net : Net)
    (l : List String) (s : NetworkVideoContentService) (w : World)
    (hwf : WellFormed hash s) (hfiles : s.files = [])
    (hnd : ((s.nodes ++ l).map hash).Nodup) (hdial : ∀ x ∈ l, dial x = true) :
    ∃ s1, runOps hash dial net (s, w) (l.map Op.addNode) = some (s1, w) ∧
      WellFormed hash s1 ∧ s1.nodes = s.nodes ++ l ∧ s1.files = [] := by
  induction l generalizing s with
  | nil => exact ⟨s, rfl, hwf, by simp, hfiles⟩
  | cons d rest ih =>
    rw [List.map_append, List.map_cons, List.nodup_append] at hnd
    obtain ⟨_, hnd2, hdisj⟩ := hnd
    have hdist : hash d ∉ s.nodes.map hash := by
      intro hmem
      exact hdisj hmem (List.mem_cons_self _ _)
    have hnew : d ∉ s.nodes := fun hmem => hdist (List.mem_map_of_mem _ hmem)
    have hrun := AddNode_no_files hash dial net s w d hfiles hnew
      (hdial d (List.mem_cons_self _ _))
    have hwf1 := WellFormed_registerNode hwf hdist
    have hnodes1 : (registerNode hash s d).nodes = s.nodes ++ [d] := rfl
    have hnd1 : (((registerNode hash s d).nodes ++ rest).map hash).Nodup := by
      rw [hnodes1, List.append_assoc, List.singleton_append, List.map_append,
        List.nodup_append]
      exact ⟨hwf.hash_nodup, hnd2, hdisj⟩
    obtain ⟨s1, hrun1, hwf2, hnodes2, hfiles2⟩ := ih (registerNode hash s d) hwf1 hfiles hnd1
      (fun x hx => hdial x (List.mem_cons_of_mem _ hx))
    refine ⟨s1, ?_, hwf2, ?_, hfiles2⟩
    · simp only [List.map_cons, runOps, step, hrun]
      exact hrun1
    · rw [hnodes2, hnodes1, List.append_assoc, List.singleton_append]


/-- C6, as amended. For a non-empty list of comma-free addresses with pairwise distinct hash
points that can all be dialled, the router built from the first address and grown by
`AddNode` calls for the others in any order, and the router built directly from the whole list
in any order, both exist, and they resolve every key to the same address, one of the list. -/
theorem incremental_eq_fresh (hash : String → Nat) (dial : String → Bool) (net : Net)
    (w : World) (a : String) (rest inc fresh : List String)
    (hfree : ∀ x ∈ a :: rest, ',' ∉ x.data)
    (hnd : ((a :: rest).map hash).Nodup)
    (hdial : ∀ x ∈ a :: rest, dial x = true)
    (hinc : inc.Perm rest) (hfresh : fresh.Perm (a :: rest)) :
    ∃ sI sF, buildIncremental hash dial net w a inc = some sI ∧
      buildFresh hash dial fresh = some sF ∧
      ∀ key, ∃ n ∈ a :: rest, findNode hash sI key = some n ∧
        findNode hash sF key = some n := by
  -- the router built from the first address
  have hsplit1 : splitNodes a = [a] := by
    have := splitNodes_joinComma [a] (by simp)
      (fun x hx => hfree x (by
        rw [List.mem_singleton] at hx
        rw [hx]; exact List.mem_cons_self _ _))
    simpa [joinComma] using this
  obtain ⟨s1, hs1⟩ := registerAll_isOk hash dial (splitNodes a)
    { nodes := splitNodes a, hashRing := [], hashToAddr := fun _ => "",
      clients := fun _ => false, files := [] }
    (fun x hx => hdial x (by
      rw [hsplit1, List.mem_singleton] at hx
      rw [hx]; exact List.mem_cons_self _ _))
  have hctor1 : NewNetworkVideoContentService hash dial a = Except.ok (sortRing s1) := by
    unfold NewNetworkVideoContentService
    have hlen : (splitNodes a).length ≠ 0 := by rw [hsplit1]; simp
    simp only [hlen, if_false, hs1]
  obtain ⟨hn1, hf1, _, _, hwf1⟩ := NewNetworkVideoContentService_ok hash dial a _ hctor1
  rw [hsplit1] at hn1 hwf1
  have hwf1 := hwf1 (by simp)
  -- grown by the other addresses
  have hndI : (((sortRing s1).nodes ++ inc).map hash).Nodup := by
    rw [hn1]
    exact ((List.Perm.cons a hinc).map hash).nodup_iff.2 hnd
  obtain ⟨sI, hrunI, hwfI, hnI, _⟩ := runOps_addNodes hash dial net inc (sortRing s1) w hwf1 hf1
    hndI (fun x hx => hdial x (List.mem_cons_of_mem _ (hinc.mem_iff.1 hx)))
  rw [hn1] at hnI
  -- the router built from the whole list
  have hfne : fresh ≠ [] := by
    intro h
    rw [h] at hfresh
    exact absurd hfresh.length_eq (by simp)
  have hsplitF : splitNodes (joinComma fresh) = fresh :=
    splitNodes_joinComma fresh hfne (fun x hx => hfree x (hfresh.mem_iff.1 hx))
  obtain ⟨sF0, hsF0⟩ := registerAll_isOk hash dial (splitNodes (joinComma fresh))
    { nodes := splitNodes (joinComma fresh), hashRing := [], hashToAddr := fun _ => "",
      clients := fun _ => false, files := [] }
    (fun x hx => hdial x (by rw [hsplitF] at hx; exact hfresh.mem_iff.1 hx))
  have hctorF : NewNetworkVideoContentService hash dial (joinComma fresh)
      = Except.ok (sortRing sF0) := by
    unfold NewNetworkVideoContentService
    have hlen : (splitNodes (joinComma fresh)).length ≠ 0 := by
      rw [hsplitF]
      intro h0
      exact hfne (List.length_eq_zero.1 h0)
    simp only [hlen, if_false, hsF0]
  obtain ⟨hnF, _, _, _, hwfF⟩ := NewNetworkVideoContentService_ok hash dial _ _ hctorF
  rw [hsplitF] at hnF hwfF
  have hwfF := hwfF ((hfresh.map hash).nodup_iff.2 hnd)
  refine ⟨sI, sortRing sF0, ?_, ?_, ?_⟩
  · simp only [buildIncremental, hctor1, hrunI]
  · simp only [buildFresh, newRouter, hctorF]
  · intro key
    have hpermI : sI.nodes.Perm (a :: rest) := by
      rw [hnI]; exact List.Perm.cons a hinc
    have hperm : sI.nodes.Perm (sortRing sF0).nodes := by
      rw [hnF]; exact hpermI.trans hfresh.symm
    have hneI : sI.nodes ≠ [] := by rw [hnI]; simp
    obtain ⟨n, hfind, hmem, _⟩ := hwfI.findNode_client hneI key
    refine ⟨n, hpermI.mem_iff.1 hmem, hfind, ?_⟩
    rw [← findNode_eq_of_perm hwfI hwfF hperm key]
    exact hfind

theorem incremental_eq_fresh_witness :
    ∃ sI sF, buildIncremental exampleHash exampleDial Net.allOk emptyWorld "n1:9001"
        ["n3:9003", "n2:9002"] = some sI ∧
      buildFresh exampleHash exampleDial ["n2:9002", "n1:9001", "n3:9003"] = some sF ∧
      ∀ key, ∃ n ∈ ["n1:9001", "n2:9002", "n3:9003"], findNode exampleHash sI key = some n ∧
        findNode exampleHash sF key = some n :=
  incremental_eq_fresh exampleHash exampleDial Net.allOk emptyWorld "n1:9001"
    ["n2:9002", "n3:9003"] ["n3:9003", "n2:9002"] ["n2:9002", "n1:9001", "n3:9003"]
    (by decide) (by decide) (by decide) (by decide) (by decide)

/-- Counterexample to C6 as stated. An address that contains a comma is one node for
`AddNode` and two for the constructor:
after `n3:9003` and then `AddNode("n1:9001,n2:9002")` the key `v1/seg-001.m4s` resolves to
`n1:9001,n2:9002`, while the router built from `n3:9003,n1:9001,n2:9002` resolves it to
`n2:9002`. -/
theorem incremental_vs_fresh_comma_address :
    (buildIncremental exampleHash exampleDial Net.allOk emptyWorld "n3:9003"
        ["n1:9001,n2:9002"]).map ListNodes = some ["n3:9003", "n1:9001,n2:9002"] ∧
    (buildFresh exampleHash exampleDial ["n3:9003", "n1:9001,n2:9002"]).map ListNodes
      = some ["n3:9003", "n1:9001", "n2:9002"] ∧
    (buildIncremental exampleHash exampleDial Net.allOk emptyWorld "n3:9003"
        ["n1:9001,n2:9002"]).bind (fun s => findNode exampleHash s "v1/seg-001.m4s")
      = some "n1:9001,n2:9002" ∧
    (buildFresh exampleHash exampleDial ["n3:9003", "n1:9001,n2:9002"]).bind
        (fun s => findNode exampleHash s "v1/seg-001.m4s")
      = some "n2:9002" := by
  decide

/-- Two comma-free addresses with the same hash point: the router built from `a,b` resolves
every key to `b` and the router built from `b,a` resolves every key to `a`, so the order of
construction shows when hash points collide. -/
theorem collision_order_dependence (hash : String → Nat) (dial : String → Bool)
    (a b : String) (hcol : hash a = hash b) (ha : ',' ∉ a.data) (hb : ',' ∉ b.data)
    (hda : dial a = true) (hdb : dial b = true) (key : String) :
    (buildFresh hash dial [a, b]).bind (fun s => findNode hash s key) = some b ∧
    (buildFresh hash dial [b, a]).bind (fun s => findNode hash s key) = some a := by
  have key_fact : ∀ x y : String, hash x = hash y → ',' ∉ x.data → ',' ∉ y.data →
      dial x = true → dial y = true →
      (buildFresh hash dial [x, y]).bind (fun s => findNode hash s key) = some y := by
    intro x y hxy hx hy hdx hdy
    have hsplit : splitNodes (joinComma [x, y]) = [x, y] :=
      splitNodes_joinComma [x, y] (by simp) (by
        intro z hz
        simp only [List.mem_cons, List.mem_singleton, List.not_mem_nil, or_false] at hz
        rcases hz with rfl | rfl
        · exact hx
        · exact hy)
    by_cases hle : hash key ≤ hash y
    · simp [buildFresh, newRouter, NewNetworkVideoContentService, hsplit, registerAll, hdx,
        hdy, sortRing, sortSlice, findNode, scanRing, hxy, mapSet, hle]
    · simp [buildFresh, newRouter, NewNetworkVideoContentService, hsplit, registerAll, hdx,
        hdy, sortRing, sortSlice, findNode, scanRing, hxy, mapSet, hle]
  exact ⟨key_fact a b hcol ha hb hda hdb, key_fact b a hcol.symm hb ha hdb hda⟩


/-! ## States the calls can leave behind -/

/-- C7, evaluated. The router built from `n1:9001`: `RemoveNode("n1:9001")` returns count 0
and leaves an empty ring, on which `findNode`, `Write` and `Read` panic (index out of range);
and after one successful `Write`, `RemoveNode("n1:9001")` itself panics. -/
theorem RemoveNode_last_node_empties_ring :
    afterLastRemove.map respCount = some (some 0) ∧
    afterLastRemove.map (fun r => r.svc.hashRing) = some [] ∧
    afterLastRemove.map (fun r => ListNodes r.svc) = some [] ∧
    afterLastRemove.map (fun r => findNode exampleHash r.svc "v1/seg-001.m4s") = some none ∧
    afterLastRemove.map
      (fun r => (Write exampleHash Net.allOk r.svc r.world "v1" "seg-001.m4s" [1]).isSome)
      = some false ∧
    afterLastRemove.map
      (fun r => (Read exampleHash Net.allOk r.svc r.world "v1" "seg-001.m4s").isSome)
      = some false ∧
    afterOneWrite.map (fun r => r.2.2) = some true ∧
    afterOneWrite.map
      (fun r => (RemoveNode exampleHash Net.allOk r.1 r.2.1 "n1:9001").isSome)
      = some false := by
  decide

/-- C8, evaluated. The router built from `n3:9003`: `AddNode("%zz")` fails at the dial and
returns an error, yet `%zz` is listed by `ListNodes` and its hash point is in the ring, while
the registry holds no client for it. -/
theorem AddNode_dial_failure_half_registers :
    afterFailedDial.map respCount = some none ∧
    afterFailedDial.map (fun r => ListNodes r.svc) = some ["n3:9003", "%zz"] ∧
    afterFailedDial.map (fun r => r.svc.hashRing)
      = some [exampleHash "n3:9003", exampleHash "%zz"] ∧
    afterFailedDial.map (fun r => r.svc.hashToAddr (exampleHash "%zz")) = some "%zz" ∧
    afterFailedDial.map (fun r => r.svc.clients "%zz") = some false := by
  decide

/-- C10, evaluated. After the failed `AddNode("%zz")` the ring is left unsorted;
`RemoveNode("n1:9001")` of an address that is neither listed nor in the client registry
returns count 0 without panic, but it sorts the ring, and the key `v1/seg-001.m4s` that
resolved to `n3:9003` before the call resolves to `%zz` after it. -/
theorem RemoveNode_unknown_changes_ring :
    afterFailedDial.map (fun r => decide ("n1:9001" ∈ ListNodes r.svc)) = some false ∧
    afterFailedDial.map (fun r => r.svc.clients "n1:9001") = some false ∧
    afterUnknownRemove.map respCount = some (some 0) ∧
    afterFailedDial.map (fun r => r.svc.hashRing)
      = some [11269482500948478728, 8055422091515383941] ∧
    afterUnknownRemove.map (fun r => r.svc.hashRing)
      = some [8055422091515383941, 11269482500948478728] ∧
    afterFailedDial.bind (fun r => findNode exampleHash r.svc "v1/seg-001.m4s")
      = some "n3:9003" ∧
    afterUnknownRemove.bind (fun r => findNode exampleHash r.svc "v1/seg-001.m4s")
      = some "%zz" := by
  decide

/-- `RemoveNode` of an address that is not listed and has no client, on a consistent router
(sorted ring): no panic, count 0, no RPC, and node list, ring, map, client registry and key
index are unchanged. -/
theorem RemoveNode_unknown_noop (hash : String → Nat) (net : Net)
    (s : NetworkVideoContentService) (w : World) (b : String) (hcons : Consistent s)
    (hb : b ∉ s.nodes) (hcl : s.clients b = false) :
    RemoveNode hash net s w b
      = some { svc := unregisterNode s b, world := w, resp := Except.ok 0 } ∧
    (unregisterNode s b).nodes = s.nodes ∧ (unregisterNode s b).hashRing = s.hashRing ∧
    (unregisterNode s b).hashToAddr = s.hashToAddr ∧
    (unregisterNode s b).clients = s.clients ∧ (unregisterNode s b).files = s.files := by
  have hno : ∀ kd ∈ s.files, ∃ o,
      findNodeInStaticRing hash kd.1 (sortSlice s.hashRing) (snapshotMap s) = some o ∧
      o ≠ b := by
    intro kd hkd
    have hne : s.hashRing ≠ [] := hcons.ring_of_files (List.ne_nil_of_mem hkd)
    obtain ⟨p, hp, hfind⟩ := findNode_isSome hash s kd.1 hne
    refine ⟨_, by rw [findNodeInStaticRing_old hash s kd.1 hcons.sorted]; exact hfind, ?_⟩
    intro hab
    exact hb (hab ▸ hcons.ring_nodes p hp)
  refine ⟨?_, ?_, ?_, rfl, ?_, rfl⟩
  · unfold RemoveNode
    rw [removeNodeLoop_noop hash net _ b _ _ _ s.files hno w 0]
    rfl
  · show s.nodes.filter (fun n => n ≠ b) = s.nodes
    rw [List.filter_eq_self]
    intro x hx
    have : x ≠ b := fun h => hb (h ▸ hx)
    simpa using this
  · show sortSlice (s.hashRing.filter (fun h => s.hashToAddr h ≠ b)) = s.hashRing
    have : s.hashRing.filter (fun h => s.hashToAddr h ≠ b) = s.hashRing := by
      rw [List.filter_eq_self]
      intro x hx
      have : s.hashToAddr x ≠ b := fun h => hb (h ▸ hcons.ring_nodes x hx)
      simpa using this
    rw [this, sortSlice_eq_self hcons.sorted]
  · show mapSet s.clients b false = s.clients
    funext x
    by_cases hx : x = b
    · simp [mapSet, hx, hcl]
    · simp [mapSet, hx]


/-! ## Consistency is kept by every call whose dial succeeds -/

theorem registerAll_map_mem (hash : String → Nat) (dial : String → Bool) (l : List String)
    (s s1 : NetworkVideoContentService) (h : registerAll hash dial l s = Except.ok s1) :
    ∀ x ∈ l.map hash, s1.hashToAddr x ∈ l := by
  induction l generalizing s with
  | nil => simp
  | cons a rest ih =>
    intro x hx
    have h0 := h
    rw [registerAll] at h
    by_cases hd : dial a = true
    · simp only [hd, if_true] at h
      by_cases hr : x ∈ rest.map hash
      · exact List.mem_cons_of_mem _ (ih _ h x hr)
      · have hxa : x = hash a := by
          rw [List.map_cons, List.mem_cons] at hx
          rcases hx with hx | hx
          · exact hx
          · exact absurd hx hr
        obtain ⟨_, _, _, _, h5, _⟩ := registerAll_ok hash dial rest _ s1 h
        rw [h5 x hr, hxa]
        simp [mapSet]
    · simp only [hd] at h
      cases h

/-- The router the constructor returns is consistent, whatever the hash points. -/
theorem NewNetworkVideoContentService_consistent (hash : String → Nat)
    (dial : String → Bool) (option : String) (s0 : NetworkVideoContentService)
    (h : NewNetworkVideoContentService hash dial option = Except.ok s0) : Consistent s0 := by
  obtain ⟨hn, hf, hr, hc, _⟩ := NewNetworkVideoContentService_ok hash dial option s0 h
  unfold NewNetworkVideoContentService at h
  have hlen : (splitNodes option).length ≠ 0 := by
    intro h0
    exact splitNodes_ne_nil option (List.length_eq_zero.1 h0)
  simp only [hlen, if_false] at h
  cases hreg : registerAll hash dial (splitNodes option)
      { nodes := splitNodes option, hashRing := [], hashToAddr := fun _ => "",
        clients := fun _ => false, files := [] } with
  | error e => rw [hreg] at h; cases h
  | ok s1 =>
    rw [hreg] at h
    simp only [Except.ok.injEq] at h
    subst h
    have hmap := registerAll_map_mem hash dial _ _ _ hreg
    have hmem : ∀ x ∈ (sortRing s1).hashRing, s1.hashToAddr x ∈ splitNodes option := by
      intro x hx
      rw [hr, mem_sortSlice] at hx
      exact hmap x hx
    exact
      { sorted := sorted_sortSlice _
        ring_nodes := by
          intro x hx
          rw [hn]
          exact hmem x hx
        ring_clients := by
          intro x hx
          rw [hc]
          simpa using hmem x hx
        keys_split := by
          intro kd hkd
          rw [hf] at hkd
          simp at hkd
        ring_of_files := fun hne => absurd hf hne }

theorem Consistent_registerNode {s : NetworkVideoContentService} (hcons : Consistent s)
    (hash : String → Nat) (d : String) : Consistent (registerNode hash s d) where
  sorted := sorted_sortSlice _
  ring_nodes := by
    intro h hh
    rw [registerNode_hashRing, mem_sortSlice, List.mem_append] at hh
    show mapSet s.hashToAddr (hash d) d h ∈ s.nodes ++ [d]
    by_cases hd : h = hash d
    · simp [mapSet, hd]
    · rcases hh with hh | hh
      · simp only [mapSet, hd, if_false]
        exact List.mem_append_left _ (hcons.ring_nodes h hh)
      · simp only [List.mem_singleton] at hh
        exact absurd hh hd
  ring_clients := by
    intro h hh
    rw [registerNode_hashRing, mem_sortSlice, List.mem_append] at hh
    show mapSet s.clients d true (mapSet s.hashToAddr (hash d) d h) = true
    by_cases hd : h = hash d
    · simp [mapSet, hd]
    · rcases hh with hh | hh
      · have := hcons.ring_clients h hh
        by_cases hx : s.hashToAddr h = d
        · simp [mapSet, hd, hx]
        · simp [mapSet, hd, hx, this]
      · simp only [List.mem_singleton] at hh
        exact absurd hh hd
  keys_split := hcons.keys_split
  ring_of_files := fun _ => registerNode_ring_ne_nil hash s d

/-- `RemoveNode` panics when it would leave an empty ring while a key is indexed. -/
theorem removeNodeLoop_none_of_empty_ring (hash : String → Nat) (net : Net)
    (s : NetworkVideoContentService) (addr : String) (oc : Bool) (oldRing : List Nat)
    (oldMap : Nat → String) (hold : oldRing ≠ []) (hall : ∀ h ∈ oldRing, oldMap h = addr)
    (hnew : s.hashRing = []) (l : List (String × Bytes)) (hl : l ≠ []) (w : World) (m : Nat) :
    removeNodeLoop hash net s addr oc oldRing oldMap l w m = none := by
  cases l with
  | nil => exact absurd rfl hl
  | cons kd rest =>
    obtain ⟨key, data⟩ := kd
    obtain ⟨p, hp, hpo⟩ := findNodeInStaticRing_isSome hash key oldMap hold
    rw [hall p hp] at hpo
    have hnone : findNode hash s key = none := by
      simp [findNode, hnew, scanRing]
    rw [removeNodeLoop]
    simp [hpo, hnone]

theorem Consistent_unregisterNode {s : NetworkVideoContentService} (hcons : Consistent s)
    (b : String) (hring : s.files ≠ [] → (unregisterNode s b).hashRing ≠ []) :
    Consistent (unregisterNode s b) where
  sorted := sorted_sortSlice _
  ring_nodes := by
    intro h hh
    obtain ⟨h1, h2⟩ := mem_unregisterNode_ring.1 hh
    show s.hashToAddr h ∈ s.nodes.filter (fun n => n ≠ b)
    rw [List.mem_filter]
    exact ⟨hcons.ring_nodes h h1, by simpa using h2⟩
  ring_clients := fun h hh => (unregisterNode_ring_props hcons b h hh).2
  keys_split := hcons.keys_split
  ring_of_files := hring

/-- Every call that does not panic, and in which an added address can be dialled, keeps the
router consistent, whatever the outcomes of the RPCs. -/
theorem step_consistent (hash : String → Nat) (dial : String → Bool) (net : Net)
    (sw sw1 : NetworkVideoContentService × World) (op : Op) (hcons : Consistent sw.1)
    (hdial : ∀ a, op = Op.addNode a → a ∈ sw.1.nodes ∨ dial a = true)
    (hstep : step hash dial net sw op = some sw1) : Consistent sw1.1 := by
  obtain ⟨s, w⟩ := sw
  cases op with
  | write v f data =>
    simp only [step] at hstep
    cases hw : Write hash net s w v f data with
    | none => rw [hw] at hstep; cases hstep
    | some r =>
      rw [hw] at hstep
      simp only [Option.some.injEq] at hstep
      subst hstep
      unfold Write at hw
      cases hfind : findNode hash s (v ++ "/" ++ f) with
      | none => rw [hfind] at hw; cases hw
      | some a =>
        have hne : s.hashRing ≠ [] := by
          intro h0
          simp [findNode, h0, scanRing] at hfind
        rw [hfind] at hw
        by_cases hcl : s.clients a = true
        · simp only [hcl, if_true] at hw
          by_cases hok : net.writeOk a (relPath v f) = true
          · simp only [rpcWriteFile, hok, if_true, Option.some.injEq] at hw
            subst hw
            exact
              { sorted := hcons.sorted
                ring_nodes := hcons.ring_nodes
                ring_clients := hcons.ring_clients
                keys_split := by
                  intro kd hkd
                  have hkd1 : kd ∈ filesSet s.files (v ++ "/" ++ f) data := hkd
                  have hk : kd.1 ∈ (filesSet s.files (v ++ "/" ++ f) data).map Prod.fst :=
                    List.mem_map_of_mem _ hkd1
                  rw [map_fst_filesSet] at hk
                  by_cases hm : (v ++ "/" ++ f) ∈ s.files.map Prod.fst
                  · simp only [hm, if_true] at hk
                    obtain ⟨kd0, hkd0, hfst⟩ := List.mem_map.1 hk
                    rw [← hfst]
                    exact hcons.keys_split kd0 hkd0
                  · simp only [hm, if_false, List.mem_append, List.mem_singleton] at hk
                    rcases hk with hk | hk
                    · obtain ⟨kd0, hkd0, hfst⟩ := List.mem_map.1 hk
                      rw [← hfst]
                      exact hcons.keys_split kd0 hkd0
                    · rw [hk]
                      exact splitKey_key_ne_none v f
                ring_of_files := fun _ => hne }
          · have hok1 : net.writeOk a (relPath v f) = false := by simpa using hok
            simp only [rpcWriteFile, hok1, Bool.false_eq_true, if_false,
              Option.some.injEq] at hw
            subst hw
            exact hcons
        · simp only [hcl] at hw
          cases hw
  | addNode a =>
    simp only [step] at hstep
    cases hr : AddNode hash dial net s w a with
    | none => rw [hr] at hstep; cases hstep
    | some r =>
      rw [hr] at hstep
      simp only [Option.some.injEq] at hstep
      subst hstep
      by_cases hmem : a ∈ s.nodes
      · rw [AddNode, if_pos hmem] at hr
        cases hr
        exact hcons
      · have hd : dial a = true := by
          rcases hdial a rfl with h | h
          · exact absurd h hmem
          · exact h
        rw [AddNode_svc_of_ok hmem hd hr]
        exact Consistent_registerNode hcons hash a
  | removeNode b =>
    simp only [step] at hstep
    cases hr : RemoveNode hash net s w b with
    | none => rw [hr] at hstep; cases hstep
    | some r =>
      rw [hr] at hstep
      simp only [Option.some.injEq] at hstep
      subst hstep
      rw [RemoveNode_svc hr]
      apply Consistent_unregisterNode hcons b
      intro hfiles hempty
      have hold : sortSlice s.hashRing ≠ [] := by
        rw [sortSlice_eq_self hcons.sorted]; exact hcons.ring_of_files hfiles
      have hall : ∀ h ∈ sortSlice s.hashRing, snapshotMap s h = b := by
        intro h hh
        have hh1 := mem_sortSlice.1 hh
        by_contra hne
        have : h ∈ (unregisterNode s b).hashRing := by
          rw [mem_unregisterNode_ring]
          exact ⟨hh1, by simpa [snapshotMap, hh1] using hne⟩
        rw [hempty] at this
        simp at this
      have hnone := removeNodeLoop_none_of_empty_ring hash net (unregisterNode s b) b
        (s.clients b) (sortSlice s.hashRing) (snapshotMap s) hold hall hempty s.files hfiles w 0
      unfold RemoveNode at hr
      rw [hnone] at hr
      cases hr

/-! ## Keys that name the same file, and calls after a failed dial -/

/-- Counterexample to C3 as stated. On the one-node router built from `n1:9001`, over storage
nodes with base directory `/data`, the calls `Write("a", "b", [1])` and `Write("a/", "b", [2])`
both succeed under the conditions of the claim; the keys `a/b` and `a//b` differ, but
`filepath.Join` gives both the file `/data/a/b`, so `Read("a", "b")` returns `[2]` while the
most recent `Write` of the key `a/b` wrote `[1]`. And with an empty base directory, after
`Write("/a", "b", [1])` on the router built from `n4:9004` and `AddNode("n3:9003")`, which
relocates the key, the new owner holds the bytes at `a/b` while `Read("/a", "b")` looks at
`/a/b` and fails. -/
theorem placement_fails_on_aliased_keys :
    (newRouter exampleHash exampleDial "n1:9001").map
      (fun s0 => admissible exampleHash exampleDial Net.allOk (s0, emptyWorld) aliasOps)
      = some true ∧
    lastWrite aliasOps "a/b" = some [1] ∧
    storagePath "/data" "a" "b" = "/data/a/b" ∧
    storagePath "/data" "a/" "b" = "/data/a/b" ∧
    aliasRun.bind
      (fun sw => (Read exampleHash Net.allOk sw.1 sw.2 "a" "b").map Prod.snd)
      = some (some [2]) ∧
    (newRouter exampleHash exampleDial "n4:9004").map
      (fun s0 => admissible exampleHash exampleDial Net.allOk (s0, bareWorld) bareOps)
      = some true ∧
    lastWrite bareOps "/a/b" = some [1] ∧
    bareRun.bind (fun sw => findNode exampleHash sw.1 "/a/b") = some "n3:9003" ∧
    bareRun.map (fun sw => sw.2.disk "n3:9003" "a/b") = some (some [1]) ∧
    bareRun.bind
      (fun sw => (Read exampleHash Net.allOk sw.1 sw.2 "/a" "b").map Prod.snd)
      = some none := by
  decide

/-- C4, evaluated. On the router built from `n3:9003`, after the failed `AddNode("%zz")` and
a successful `Write("v1", "seg-002.m4s", [3])`, the address `n4:9004` is not listed and can be
dialled, yet `AddNode("n4:9004")` does not return: the old owner of the key under the sorted
snapshot is `%zz`, which has no client, and the `DeleteFile` call on it panics. -/
theorem AddNode_panics_after_failed_dial :
    afterFailedDialWrite.map (fun r => r.2.2) = some true ∧
    afterFailedDialWrite.map (fun r => ListNodes r.1) = some ["n3:9003", "%zz"] ∧
    exampleDial "n4:9004" = true ∧
    afterFailedDialWrite.bind
      (fun r => findNodeInStaticRing exampleHash "v1/seg-002.m4s" (sortSlice r.1.hashRing)
        (snapshotMap r.1)) = some "%zz" ∧
    afterFailedDialWrite.map (fun r => r.1.clients "%zz") = some false ∧
    afterFailedDialWrite.map
      (fun r => (AddNode exampleHash exampleDial Net.allOk r.1 r.2.1 "n4:9004").isSome)
      = some false := by
  decide

/-- C5, evaluated. On the router built from `n3:9003,n4:9004`, after the failed
`AddNode("%zz")` and a successful `Write("v1", "seg-002.m4s", [3])`, which `n4:9004` owns,
`RemoveNode("n4:9004")` does not return: the new owner of the key is `%zz`, which has no
client, and the `WriteFile` call on it panics. -/
theorem RemoveNode_panics_after_failed_dial :
    twoNodesFailedDialWrite.map (fun r => r.2.2) = some true ∧
    twoNodesFailedDialWrite.map (fun r => ListNodes r.1)
      = some ["n3:9003", "n4:9004", "%zz"] ∧
    twoNodesFailedDialWrite.map (fun r => (r.1.clients "n3:9003", r.1.clients "n4:9004"))
      = some (true, true) ∧
    twoNodesFailedDialWrite.bind (fun r => findNode exampleHash r.1 "v1/seg-002.m4s")
      = some "n4:9004" ∧
    twoNodesFailedDialWrite.bind
      (fun r => findNode exampleHash (unregisterNode r.1 "n4:9004") "v1/seg-002.m4s")
      = some "%zz" ∧
    twoNodesFailedDialWrite.map (fun r => r.1.clients "%zz") = some false ∧
    twoNodesFailedDialWrite.map
      (fun r => (RemoveNode exampleHash Net.allOk r.1 r.2.1 "n4:9004").isSome)
      = some false := by
  decide

end TritonTube
